import Mathlib

/-!
Verification of the settings-manager core (change-tracking containers,
reconciliation/sanitization, save/load orchestration) against its
natural-language specification.

The Python data model is embedded shallowly:

* A raw settings tree (`PTree`) is either a scalar leaf or a dict.  Python
  dicts are ordered key/value sequences, embedded here as an explicit
  cons-spine (`dnil` / `dcons`) so that every operation is a plain structural
  recursion.  Keys are Python strings, embedded as `List Char`.
* Fallible Python code (statements that can raise) is embedded with
  `Option` / `Except`: a `none` / `.error` result means the corresponding
  Python raises at that point, before mutating anything further.
* Mutation of nested dicts through references is embedded by functional
  write-back along the access path, which coincides with the in-place update
  for trees without internal aliasing.
-/

/-- Decidable equality for `Except` results, so concrete runs of the
embedded fallible operations can be checked by `decide`. -/
instance {ε α : Type} [DecidableEq ε] [DecidableEq α] : DecidableEq (Except ε α) :=
  fun a b =>
    match a, b with
    | .error e, .error e' =>
      if h : e = e' then .isTrue (by rw [h]) else .isFalse (by simp [h])
    | .ok x, .ok y =>
      if h : x = y then .isTrue (by rw [h]) else .isFalse (by simp [h])
    | .error _, .ok _ => .isFalse (by simp)
    | .ok _, .error _ => .isFalse (by simp)

/-- A Python string (used as a dict key and as a dotted path). -/
abbrev Key := List Char

/-- A raw settings tree: a scalar value or an ordered dict.  `dcons k v rest`
is the dict whose first binding is `k ↦ v`, followed by the bindings of
`rest`.  Scalars are abstracted to `Nat` identifiers: the sanitization and
save logic never inspects scalar payloads. -/
inductive PTree where
  | leaf : Nat → PTree
  | dnil : PTree
  | dcons : Key → PTree → PTree → PTree
deriving DecidableEq

/-- Python `d[k]` as a total lookup: first binding wins, `none` when the key
is absent or the value is not a dict (Python raises KeyError / TypeError). -/
def lookupKey : PTree → Key → Option PTree
  | .dcons k' v rest, k => if k' = k then some v else lookupKey rest k
  | _, _ => none

/-- Python `k in d`. -/
def containsKey (t : PTree) (k : Key) : Bool :=
  (lookupKey t k).isSome

/-- Python `del d[k]` (the key is assumed present; absence is handled at call
sites, where Python would raise KeyError). -/
def delKey : PTree → Key → PTree
  | .dcons k' v rest, k => if k' = k then rest else .dcons k' v (delKey rest k)
  | t, _ => t

/-- Python `d[k] = v`: replace the binding in place if present, otherwise
append it at the end (dict insertion order). -/
def setKey : PTree → Key → PTree → PTree
  | .dcons k' v' rest, k, v =>
      if k' = k then .dcons k v rest else .dcons k' v' (setKey rest k v)
  | _, k, v => .dcons k v .dnil

/-- Python `isinstance(x, dict)`. -/
def isDict : PTree → Bool
  | .dnil => true
  | .dcons _ _ _ => true
  | _ => false

/-- Python `str.split(".")` on a key/path string.  Splitting the empty string
yields `[""]`, exactly as in Python. -/
def splitDot : List Char → List (List Char)
  | [] => [[]]
  | c :: cs =>
    let r := splitDot cs
    if c = '.' then [] :: r
    else
      match r with
      | [] => [[c]]
      | s :: rest => (c :: s) :: rest

/-- The dotted-path join from `_sanitize_settings`:
`f"{dict_path}.{key}" if dict_path else key` (the empty string is falsy). -/
def joinPath (p : List Char) (k : Key) : List Char :=
  if p = [] then k else p ++ '.' :: k

/-- Python `dict.update` for one binding on the ordered association list of
`keys_to_add`: overwrite in place, or append at the end if new. -/
def updOne : List (List Char × PTree) → List Char → PTree → List (List Char × PTree)
  | [], k, v => [(k, v)]
  | (k', v') :: rest, k, v =>
      if k' = k then (k, v) :: rest else (k', v') :: updOne rest k v

/-- Python `a.update(b)` for the `keys_to_add` dicts. -/
def updMany (a b : List (List Char × PTree)) : List (List Char × PTree) :=
  b.foldl (fun acc kv => updOne acc kv.1 kv.2) a

/-- The second loop of `_sanitize_settings`: for every default key missing
from the settings, record the dotted path with the default value. -/
def addMissing : PTree → PTree → List Char → List (List Char × PTree)
  | .dcons k dv rest, s, p =>
      (if containsKey s k then [] else [(joinPath p k, dv)]) ++ addMissing rest s p
  | _, _, _ => []

/-- The first loop of `_sanitize_settings` (base.py), with the accumulating
`keys_to_remove` / `keys_to_add` pair threaded exactly as in the Python code.
The recursive call on a nested both-dict pair is the full
`_sanitize_settings` (first loop plus second loop), inlined here via
`addMissing` so that the whole computation is one structural recursion. -/
def planLoop : PTree → PTree → List Char →
    List (List Char) × List (List Char × PTree) →
    List (List Char) × List (List Char × PTree)
  | .dcons k v rest, ds, p, acc =>
    let cur := joinPath p k
    let acc' :=
      match lookupKey ds k with
      | none => (acc.1 ++ [cur], acc.2)
      | some dv =>
        if isDict v && isDict dv then
          let sub := planLoop v dv cur ([], [])
          let nested := (sub.1, updMany sub.2 (addMissing dv v cur))
          (acc.1 ++ nested.1, updMany acc.2 nested.2)
        else acc
    planLoop rest ds p acc'
  | _, _, _, acc => acc

/-- `_sanitize_settings(settings, default_settings, dict_path)` (base.py):
returns the reconciliation plan, a pair of dotted key-paths to remove and a
mapping of dotted key-paths to default values to add. -/
def sanitize_plan (s ds : PTree) (p : List Char) :
    List (List Char) × List (List Char × PTree) :=
  let first := planLoop s ds p ([], [])
  (first.1, updMany first.2 (addMissing ds s p))

/-- The walk of `_remove_key` after `key.split(".")`: descend along all
segments but the last, then delete the last.  `none` where Python raises
(missing key: KeyError; indexing a non-dict: TypeError). -/
def removeSegs : PTree → List Key → Option PTree
  | store, [k] => if containsKey store k then some (delKey store k) else none
  | store, k :: rest =>
      match lookupKey store k with
      | some sub => (removeSegs sub rest).map (setKey store k)
      | none => none
  | _, [] => none

/-- `_remove_key(key)` (base.py): split the dotted path and delete. -/
def remove_key (store : PTree) (path : List Char) : Option PTree :=
  removeSegs store (splitDot path)

/-- The walk of `_add_key` after `key.split(".")`: descend along all segments
but the last, then assign the last.  `none` where Python raises. -/
def addSegs : PTree → List Key → PTree → Option PTree
  | store, [k], v => if isDict store then some (setKey store k v) else none
  | store, k :: rest, v =>
      match lookupKey store k with
      | some sub => (addSegs sub rest v).map (setKey store k)
      | none => none
  | _, [], _ => none

/-- `_add_key(key, value)` (base.py). -/
def add_key (store : PTree) (path : List Char) (v : PTree) : Option PTree :=
  addSegs store (splitDot path) v

/-- Sequentially apply `_remove_key` to each planned removal path. -/
def applyRemovals : PTree → List (List Char) → Option PTree
  | s, [] => some s
  | s, p :: rest =>
      match remove_key s p with
      | some s' => applyRemovals s' rest
      | none => none

/-- Sequentially apply `_add_key` to each planned addition. -/
def applyAdditions : PTree → List (List Char × PTree) → Option PTree
  | s, [] => some s
  | s, kv :: rest =>
      match add_key s kv.1 kv.2 with
      | some s' => applyAdditions s' rest
      | none => none

/-- How an error escapes `sanitize_settings` (base.py): the method only
catches (and re-raises) `SanitizationError`, which nothing in the plan or
apply code raises, so a KeyError/TypeError from `_remove_key` / `_add_key`
escapes as itself, unwrapped. -/
inductive SanErr where
  | uncaught
  | sanitizationError
deriving DecidableEq

/-- `sanitize_settings()` (base.py): compute the plan against the default
tree, apply all removals, then all additions, in order.  An exception while
applying surfaces unwrapped (`SanErr.uncaught`). -/
def sanitize_settings (store defaults : PTree) : Except SanErr PTree :=
  let plan := sanitize_plan store defaults []
  match applyRemovals store plan.1 with
  | none => .error .uncaught
  | some s1 =>
    match applyAdditions s1 plan.2 with
    | none => .error .uncaught
    | some s2 => .ok s2

/-- First phase of the flat sanitizer of settings_manager.py: delete every
top-level key of `data` that the defaults do not have. -/
def smRemoveAlien : PTree → PTree → PTree
  | .dcons k v rest, ds =>
      if containsKey ds k then .dcons k v (smRemoveAlien rest ds)
      else smRemoveAlien rest ds
  | t, _ => t

/-- Second phase of the flat sanitizer of settings_manager.py: for every
default key missing from `data`, set it to the default value. -/
def smAddMissingFold : PTree → PTree → PTree
  | .dcons k dv rest, data =>
      smAddMissingFold rest (if containsKey data k then data else setKey data k dv)
  | _, data => data

/-- The flat sanitizer `_sanitize_settings(default, data)` of
settings_manager.py: top-level keys only, any exception wrapped as
`SanitizationError` (none can actually occur on this path). -/
def sm_sanitize_settings (defaults data : PTree) : Except SanErr PTree :=
  .ok (smAddMissingFold defaults (smRemoveAlien data defaults))

/-- Walk a tree along a list of key segments (used to state which key paths
exist in a tree and what value they hold). -/
def lookupPath : PTree → List Key → Option PTree
  | t, [] => some t
  | t, k :: rest =>
    match lookupKey t k with
    | some v => lookupPath v rest
    | none => none

/-- Concatenation of two dict spines. -/
def dappend : PTree → PTree → PTree
  | .dcons k v rest, t => .dcons k v (dappend rest t)
  | _, t => t

/-- The bindings of the default tree whose keys the settings tree lacks
(in default order), as a dict spine. -/
def addMissingT : PTree → PTree → PTree
  | .dcons k dv rest, s =>
      if containsKey s k then addMissingT rest s
      else .dcons k dv (addMissingT rest s)
  | _, _ => .dnil

/-- The recursive merge that (as proved below) characterizes what one
successful run of `sanitize_settings` does to a tree with sane keys: walk the
settings spine dropping keys the defaults lack, recursing into both-dict
pairs, keeping all other present values untouched; then append the defaults'
missing bindings.  The second argument carries the full settings dict for the
final missing-key phase. -/
def mergeAux : PTree → PTree → PTree → PTree
  | .dcons k v rest, s, ds =>
    (match lookupKey ds k with
     | none => mergeAux rest s ds
     | some dv =>
       .dcons k (if isDict v && isDict dv then mergeAux v v dv else v)
         (mergeAux rest s ds))
  | _, s, ds => addMissingT ds s

/-- The one-pass denotation of `sanitize_settings`. -/
def mergeT (s ds : PTree) : PTree :=
  mergeAux s s ds

/-- A key a Python dict can use safely with the dotted-path scheme of the
sanitizer: nonempty and containing no `'.'`. -/
def goodKey (k : Key) : Bool :=
  decide (k ≠ []) && decide ('.' ∉ k)

/-- A tree whose dicts all have pairwise-distinct, nonempty, dot-free keys
and well-formed spines (a dict's tail is again a dict, as is automatic for a
Python dict).  Python guarantees distinctness and the spine shape;
dot-freeness is the proviso under which the dotted-path plan/apply scheme is
faithful. -/
def goodT : PTree → Bool
  | .leaf _ => true
  | .dnil => true
  | .dcons k v rest =>
      goodKey k && !containsKey rest k && isDict rest && goodT v && goodT rest

/-- Removal paths of the plan, as lists of key segments (no dotted
encoding); used to relate the dotted plan to the recursive merge. -/
def planSegsRem : PTree → PTree → List (List Key)
  | .dcons k v rest, ds =>
    (match lookupKey ds k with
     | none => [[k]]
     | some dv =>
       if isDict v && isDict dv then (planSegsRem v dv).map (k :: ·) else [])
    ++ planSegsRem rest ds
  | _, _ => []

/-- The missing-key additions at one level, as singleton segment paths. -/
def missingSegs : PTree → PTree → List (List Key × PTree)
  | .dcons k dv rest, s =>
      (if containsKey s k then [] else [([k], dv)]) ++ missingSegs rest s
  | _, _ => []

/-- Addition paths contributed by the first loop (nested both-dict pairs),
as lists of key segments. -/
def planSegsAddAux : PTree → PTree → List (List Key × PTree)
  | .dcons k v rest, ds =>
    (match lookupKey ds k with
     | some dv =>
       if isDict v && isDict dv then
         (planSegsAddAux v dv ++ missingSegs dv v).map (fun kv => (k :: kv.1, kv.2))
       else []
     | none => []) ++ planSegsAddAux rest ds
  | _, _ => []

/-- All addition paths of the plan, as lists of key segments. -/
def planSegsAdd (s ds : PTree) : List (List Key × PTree) :=
  planSegsAddAux s ds ++ missingSegs ds s

/-- Apply the removal walk to a segment path directly. -/
def applyRemsSeg : PTree → List (List Key) → Option PTree
  | s, [] => some s
  | s, p :: rest =>
    match removeSegs s p with
    | some s' => applyRemsSeg s' rest
    | none => none

/-- Apply the addition walk to a segment path directly. -/
def applyAddsSeg : PTree → List (List Key × PTree) → Option PTree
  | s, [] => some s
  | s, kv :: rest =>
    match addSegs s kv.1 kv.2 with
    | some s' => applyAddsSeg s' rest
    | none => none

/-- The result of the removal phase alone: prune alien keys along both-dict
spines, leaving everything else in place. -/
def pruneSpine : PTree → PTree → PTree
  | .dcons k v rest, ds =>
    (match lookupKey ds k with
     | none => pruneSpine rest ds
     | some dv =>
       .dcons k (if isDict v && isDict dv then pruneSpine v dv else v)
         (pruneSpine rest ds))
  | t, _ => t

/-- The settings spine after both removal and addition phases complete on
every nested pair (the missing keys of *this* level not yet appended). -/
def keepSpine : PTree → PTree → PTree
  | .dcons k v rest, ds =>
    (match lookupKey ds k with
     | none => keepSpine rest ds
     | some dv =>
       .dcons k (if isDict v && isDict dv then mergeT v dv else v)
         (keepSpine rest ds))
  | t, _ => t

/-- Dotted-path encoding of a segment path relative to prefix `p`. -/
def encFrom (p : List Char) (segs : List Key) : List Char :=
  segs.foldl joinPath p

/-- The supported on-disk formats. -/
inductive Fmt where
  | json | yaml | toml | ini
deriving DecidableEq

/-- Errors `save()` can surface (the write itself is out of scope: an `.ok`
result is the tree handed to the codec for writing; an `.error` means the
method raised before opening the file, so the on-disk file is unchanged). -/
inductive SaveErr where
  | iniFormatError
  | sanitizeError
deriving DecidableEq

/-- `valid_ini_format(data)`: every top-level value must itself be a dict. -/
def valid_ini_format : PTree → Bool
  | .dcons _ v rest => isDict v && valid_ini_format rest
  | _ => true

/-- `save()` (base.py): optional sanitize pass, then the INI structural check
guarded by `self._format == "ini"`, then the write. -/
def save_base (fmt : Fmt) (autoSanitize : Bool) (store defaults : PTree) :
    Except SaveErr PTree :=
  match (if autoSanitize then sanitize_settings store defaults else .ok store) with
  | .error _ => .error .sanitizeError
  | .ok st =>
    if fmt = .ini && !valid_ini_format st then .error .iniFormatError
    else .ok st

/-- `save()` (settings_manager.py `SettingsManagerBase`): same shape, but the
INI structural check is applied unconditionally, with no test of the active
format. -/
def save_sm (fmt : Fmt) (autoSanitize : Bool) (store defaults : PTree) :
    Except SaveErr PTree :=
  match (if autoSanitize then sanitize_settings store defaults else .ok store) with
  | .error _ => .error .sanitizeError
  | .ok st =>
    if !valid_ini_format st then .error .iniFormatError
    else .ok st

/-- Modelled from the spec: the `enable_autosave` / `disable_autosave`
collaborator methods required by the decorators in decorators.py are not
implemented under src/ (only the `AutosaveProtocol` declares them); per the
spec, the toggle suppresses or enables notification-triggered writes, i.e.
it sets the `_autosave_enabled` flag.  A wrapped operation is a function of
the flag that either returns normally with the flag it leaves behind
(`.ok`), or raises with the flag it leaves behind (`.error`). -/
def enable_autosave : Bool → Bool := fun _ => true

/-- Modelled from the spec: see `enable_autosave`. -/
def disable_autosave : Bool → Bool := fun _ => false

/-- `toggle_autosave_off(func)` (decorators.py): disable if enabled, run the
function (an exception propagates immediately: the trailing re-enable is not
in a `finally`), then re-enable if disabled. -/
def toggle_autosave_off (op : Bool → Except Bool Bool) (en : Bool) :
    Except Bool Bool :=
  match op (if en then disable_autosave en else en) with
  | .error e => .error e
  | .ok en2 => .ok (if !en2 then enable_autosave en2 else en2)

/-- `toggle_autosave_on(func)` (decorators.py): enable if disabled, run the
function, then disable if enabled; no `finally`, so an exception skips the
trailing toggle. -/
def toggle_autosave_on (op : Bool → Except Bool Bool) (en : Bool) :
    Except Bool Bool :=
  match op (if !en then enable_autosave en else en) with
  | .error e => .error e
  | .ok en2 => .ok (if en2 then disable_autosave en2 else en2)

/-- Python truthiness of an optional string argument (`None` and the empty
string are falsy). -/
def truthy : Option (List Char) → Bool
  | none => false
  | some s => !s.isEmpty

/-- The configuration error raised by the constructor's path validation. -/
inductive InitErr where
  | invalidPathError
deriving DecidableEq

/-- The path validation and assignment at the top of
`SettingsManagerBase.__init__` (base.py): the two `InvalidPathError` checks
run first, before any other work; then `_read_path` / `_write_path` are
assigned by `if path: ... elif read_path and write_path: ...` — when neither
branch fires, the attributes are simply never assigned (`.ok (none, none)`)
and construction proceeds. -/
def set_paths (path read_path write_path : Option (List Char)) :
    Except InitErr (Option (List Char) × Option (List Char)) :=
  if !truthy path && !(truthy read_path || truthy write_path) then
    .error .invalidPathError
  else if truthy path && (truthy read_path || truthy write_path) then
    .error .invalidPathError
  else if truthy path then .ok (path, path)
  else if truthy read_path && truthy write_path then .ok (read_path, write_path)
  else .ok (none, none)

/-- A plain (unwrapped) Python value as assigned by a caller: a scalar, a
dict (spine `rnil`/`rcons`), or a list (spine `lnil`/`lcons`). -/
inductive RVal where
  | prim : Nat → RVal
  | rnil : RVal
  | rcons : Key → RVal → RVal → RVal
  | lnil : RVal
  | lcons : RVal → RVal → RVal
deriving DecidableEq

/-- A value as stored inside the change-tracking wrappers of subclasses.py.
`node reg es` is a `DictWrapper` holding registry reference `reg` and dict
data `es` (spine `enil`/`econs`); `lnode reg raw items` is a `ListWrapper`
holding registry `reg`, its `_data` attribute `raw` (the original plain
list), and its list contents `items` (spine `inil`/`icons`, the wrapped
elements).  `rawv v` is a plain value stored without wrapping (as
`BaseWrapper.__init__` does for the entries of a freshly wrapped dict). -/
inductive WVal where
  | prim : Nat → WVal
  | rawv : RVal → WVal
  | node : Nat → WVal → WVal
  | enil : WVal
  | econs : Key → WVal → WVal → WVal
  | lnode : Nat → RVal → WVal → WVal
  | inil : WVal
  | icons : WVal → WVal → WVal
deriving DecidableEq

/-- Registry identity: callback lists live in a heap indexed by registry id,
so that "the same list object" is expressible.  `regGet` reads a registry. -/
abbrev Heap := List (List Nat)

/-- Contents of registry `r`. -/
def regGet (h : Heap) (r : Nat) : List Nat :=
  h.getD r []

/-- `list.append(cb)` on registry `r`. -/
def regAppend (h : Heap) (r : Nat) (cb : Nat) : Heap :=
  h.set r (regGet h r ++ [cb])

/-- `callbacks if callbacks else []` in `BaseWrapper.__init__`: if the list
passed down is empty (falsy), the new wrapper allocates its own fresh list;
otherwise it shares the parent's list by reference. -/
def pickReg (h : Heap) (parent : Nat) : Heap × Nat :=
  if regGet h parent = [] then (h ++ [[]], h.length) else (h, parent)

/-- How a freshly wrapped dict stores its entries: `DictWrapper.__init__`
keeps the plain dict as `_data` unperformed, so nested plain dicts/lists stay
unwrapped (`rawv`), and scalars are stored as themselves. -/
def embedPlain : RVal → WVal
  | .prim n => .prim n
  | v => .rawv v

/-- The entry spine of a freshly wrapped plain dict. -/
def embedEntries : RVal → WVal
  | .rcons k v rest => .econs k (embedPlain v) (embedEntries rest)
  | _ => .enil

/-- Wrapping of the elements of a plain list spine by `ListWrapper.__init__`
(`self._wrap(value) for value in data`): each element is wrapped against the
list wrapper's own registry `reg`; dict elements become `DictWrapper`s with
raw entries, list elements recursively become `ListWrapper`s. -/
def wrapList : Heap → Nat → RVal → Heap × WVal
  | h, reg, .lcons v rest =>
    let hw : Heap × WVal :=
      match v with
      | .prim n => (h, .prim n)
      | .rnil => let p := pickReg h reg; (p.1, .node p.2 .enil)
      | .rcons k x r2 =>
          let p := pickReg h reg
          (p.1, .node p.2 (embedEntries (.rcons k x r2)))
      | .lnil => let p := pickReg h reg; (p.1, .lnode p.2 .lnil .inil)
      | .lcons x r2 =>
          let p := pickReg h reg
          let q := wrapList p.1 p.2 (.lcons x r2)
          (q.1, .lnode p.2 (.lcons x r2) q.2)
    let tail := wrapList hw.1 reg rest
    (tail.1, .icons hw.2 tail.2)
  | h, _, _ => (h, .inil)

/-- `BaseWrapper._wrap(value)`: scalars pass through; a plain dict becomes a
`DictWrapper` and a plain list a `ListWrapper`, each sharing `self`'s
callback list unless that list is empty (then a fresh one is allocated, see
`pickReg`). -/
def wrapV (h : Heap) (parent : Nat) : RVal → Heap × WVal
  | .prim n => (h, .prim n)
  | .rnil => let p := pickReg h parent; (p.1, .node p.2 .enil)
  | .rcons k v rest =>
      let p := pickReg h parent
      (p.1, .node p.2 (embedEntries (.rcons k v rest)))
  | .lnil => let p := pickReg h parent; (p.1, .lnode p.2 .lnil .inil)
  | .lcons v rest =>
      let p := pickReg h parent
      let q := wrapList p.1 p.2 (.lcons v rest)
      (q.1, .lnode p.2 (.lcons v rest) q.2)

/-- Dict data lookup (`self._data[key]` in `DictWrapper.__getitem__`). -/
def elookup : WVal → Key → Option WVal
  | .econs k' v rest, k => if k' = k then some v else elookup rest k
  | _, _ => none

/-- Dict data store (`self._data[key] = wrapped`). -/
def eset : WVal → Key → WVal → WVal
  | .econs k' v' rest, k, v =>
      if k' = k then .econs k v rest else .econs k' v' (eset rest k v)
  | _, k, v => .econs k v .enil

/-- Dict data delete (`del self._data[key]`, key present). -/
def edel : WVal → Key → WVal
  | .econs k' v rest, k => if k' = k then rest else .econs k' v (edel rest k)
  | t, _ => t

/-- `list.append` on the list contents of a `ListWrapper`. -/
def iappend : WVal → WVal → WVal
  | .icons v rest, w => .icons v (iappend rest w)
  | _, w => .icons w .inil

/-- The state of one `DotDict` container: the registry heap, the root's
registry id, and the root's dict data. -/
structure Sys where
  heap : Heap
  rootReg : Nat
  rootData : WVal
deriving DecidableEq

/-- `DotDict()`: empty data, fresh empty callback list. -/
def initSys : Sys :=
  ⟨[[]], 0, .enil⟩

/-- `DictWrapper.__setitem__` reached through a chain of nested views: walk
`path` through stored `DictWrapper`s (each step is `view[key]` returning the
stored wrapper), then on the target view wrap the value, store it, and
notify.  The returned trace is the callback list fired by `_notify`, in
order.  `none` where Python raises (path step missing or not a view). -/
def setIn (h : Heap) (reg : Nat) (data : WVal) :
    List Key → Key → RVal → Option (Heap × WVal × List Nat)
  | [], k, v =>
    let q := wrapV h reg v
    some (q.1, eset data k q.2, regGet q.1 reg)
  | p :: rest, k, v =>
    match elookup data p with
    | some (.node r es) =>
      (setIn h r es rest k v).map fun t => (t.1, eset data p (.node r t.2.1), t.2.2)
    | _ => none

/-- `DictWrapper.__delitem__` through a chain of nested views: `del` raises
KeyError before `_notify` when the key is missing, so a failed delete fires
nothing and changes nothing. -/
def delIn (h : Heap) (reg : Nat) (data : WVal) :
    List Key → Key → Option (Heap × WVal × List Nat)
  | [], k =>
    match elookup data k with
    | some _ => some (h, edel data k, regGet h reg)
    | none => none
  | p :: rest, k =>
    match elookup data p with
    | some (.node r es) =>
      (delIn h r es rest k).map fun t => (t.1, eset data p (.node r t.2.1), t.2.2)
    | _ => none

/-- `ListWrapper.append` on the list view stored at `path` (the last segment
names the entry holding the `ListWrapper`): `super().append(self._wrap(item))`
appends the wrapped item to the list contents, leaves the `_data` attribute
untouched, then notifies. -/
def appendIn (h : Heap) (data : WVal) :
    List Key → RVal → Option (Heap × WVal × List Nat)
  | [k], item =>
    match elookup data k with
    | some (.lnode r raw items) =>
      let q := wrapV h r item
      some (q.1, eset data k (.lnode r raw (iappend items q.2)), regGet q.1 r)
    | _ => none
  | p :: rest, item =>
    match elookup data p with
    | some (.node r es) =>
      (appendIn h es rest item).map fun t => (t.1, eset data p (.node r t.2.1), t.2.2)
    | _ => none
  | [], _ => none

/-- Mutation through the root container. -/
def setAtPath (s : Sys) (path : List Key) (k : Key) (v : RVal) :
    Option (Sys × List Nat) :=
  (setIn s.heap s.rootReg s.rootData path k v).map fun t =>
    (⟨t.1, s.rootReg, t.2.1⟩, t.2.2)

/-- Deletion through the root container. -/
def delAtPath (s : Sys) (path : List Key) (k : Key) : Option (Sys × List Nat) :=
  (delIn s.heap s.rootReg s.rootData path k).map fun t =>
    (⟨t.1, s.rootReg, t.2.1⟩, t.2.2)

/-- List append through the root container. -/
def appendAtPath (s : Sys) (path : List Key) (item : RVal) :
    Option (Sys × List Nat) :=
  (appendIn s.heap s.rootData path item).map fun t =>
    (⟨t.1, s.rootReg, t.2.1⟩, t.2.2)

/-- Registry ids of the direct child wrapper values of a dict data spine
(the values `DotDict.add_callback` loops over with `isinstance(value,
BaseWrapper)`), in data order. -/
def childRegs : WVal → List Nat
  | .econs _ v rest =>
    (match v with
     | .node r _ => [r]
     | .lnode r _ _ => [r]
     | _ => []) ++ childRegs rest
  | _ => []

/-- `DotDict.add_callback(cb)`: append to the root's list, then append to
each direct child wrapper's list (`value.add_callback`, which is the
non-recursive `BaseWrapper.add_callback`). -/
def add_callback (s : Sys) (cb : Nat) : Sys :=
  let h1 := regAppend s.heap s.rootReg cb
  let h2 := (childRegs s.rootData).foldl (fun h r => regAppend h r cb) h1
  ⟨h2, s.rootReg, s.rootData⟩

/-- `DictWrapper.to_dict` (and the export used by the codec): dict wrappers
recurse, list wrappers contribute their `_data` attribute (`value._data`),
plain stored values pass through. -/
def to_dict : WVal → RVal
  | .econs k v rest =>
    let ev : RVal :=
      match v with
      | .prim n => .prim n
      | .rawv r => r
      | .node _ es => to_dict es
      | .lnode _ raw _ => raw
      | _ => .prim 0
    .rcons k ev (to_dict rest)
  | _ => .rnil

/-- One operation on a container, for describing reachable states. -/
inductive WOp where
  | addCb : Nat → WOp
  | setV : List Key → Key → RVal → WOp
  | delV : List Key → Key → WOp
  | appendV : List Key → RVal → WOp
deriving DecidableEq

/-- Run one operation; a failed mutation (Python raises before mutating)
leaves the state unchanged. -/
def stepOp (s : Sys) : WOp → Sys
  | .addCb cb => add_callback s cb
  | .setV p k v => match setAtPath s p k v with
                   | some t => t.1
                   | none => s
  | .delV p k => match delAtPath s p k with
                 | some t => t.1
                 | none => s
  | .appendV p it => match appendAtPath s p it with
                     | some t => t.1
                     | none => s

/-- Run a program from a fresh `DotDict`. -/
def runOps (ops : List WOp) : Sys :=
  ops.foldl stepOp initSys

/-- The operation is a mutation (not a callback registration). -/
def isMut : WOp → Bool
  | .addCb _ => false
  | _ => true

/-- All registry ids referenced by wrappers stored anywhere in a data
value. -/
def wregs : WVal → List Nat
  | .node r es => r :: wregs es
  | .lnode r _ items => r :: wregs items
  | .econs _ v rest => wregs v ++ wregs rest
  | .icons v rest => wregs v ++ wregs rest
  | _ => []

/-! Theorems.  Small helper lemmas first, then one named theorem per claim
(with witnesses/counterexamples as required). -/

/-- C9: construction raises `InvalidPathError` synchronously (the checks are
the first statements of `__init__`, before any I/O or state change) in
exactly these cases: no truthy path argument at all, or a truthy single path
together with a truthy read or write path. -/
theorem C9_set_paths_error_iff (p r w : Option (List Char)) :
    set_paths p r w = .error .invalidPathError ↔
      ((truthy p = false ∧ truthy r = false ∧ truthy w = false) ∨
       (truthy p = true ∧ (truthy r = true ∨ truthy w = true))) := by
  rcases hp : truthy p <;> rcases hr : truthy r <;> rcases hw : truthy w <;>
    simp [set_paths, hp, hr, hw]

/-- Witness for C9 at a concrete input: supplying no paths at all raises. -/
theorem C9_set_paths_error_iff_witness :
    set_paths none none none = .error .invalidPathError :=
  (C9_set_paths_error_iff none none none).mpr (by decide)

/-- C10: supplying only `read_path` passes both validation checks (no
`InvalidPathError`), yet neither assignment branch runs — `_read_path` and
`_write_path` are left unset (`(none, none)`) and construction proceeds
into format detection. -/
theorem C10_read_path_only_unset :
    set_paths none (some ['a']) none = Except.ok (none, none) := by
  decide

/-- C7 counterexample: the autosave toggles do not have guaranteed-restore
semantics.  With autosave initially disabled, a normally returning wrapped
operation under `toggle_autosave_off` exits with autosave *enabled* (state
not restored); and when the wrapped operation raises with autosave disabled
and an initially enabled flag, the wrapper propagates the exception without
running its trailing toggle, leaving the flag disabled. -/
theorem C7_no_restore_counterexample :
    toggle_autosave_off (fun b => .ok b) false = .ok true ∧
    toggle_autosave_off (fun _ => .error false) true = .error false := by
  constructor <;> rfl

/-- C7 amended: `toggle_autosave_off` always leaves autosave enabled on a
normal return (restoring the previous state only when autosave was enabled
on entry), `toggle_autosave_on` always leaves it disabled, and when the
wrapped operation raises neither wrapper runs its trailing toggle — the flag
stays exactly as the operation left it. -/
theorem C7_toggle_exit_state (op : Bool → Except Bool Bool) (en : Bool) :
    (∀ r, toggle_autosave_off op en = .ok r → r = true) ∧
    (∀ e, toggle_autosave_off op en = .error e →
      op (if en then disable_autosave en else en) = .error e) ∧
    (∀ r, toggle_autosave_on op en = .ok r → r = false) := by
  refine ⟨?_, ?_, ?_⟩
  · intro r h
    unfold toggle_autosave_off at h
    rcases hop : op (if en then disable_autosave en else en) with e | b <;>
      rw [hop] at h
    · exact Except.noConfusion h
    · injection h with h2
      subst h2
      cases b <;> rfl
  · intro e h
    unfold toggle_autosave_off at h
    rcases hop : op (if en then disable_autosave en else en) with e' | b <;>
      rw [hop] at h
    · exact h
    · exact Except.noConfusion h
  · intro r h
    unfold toggle_autosave_on at h
    rcases hop : op (if !en then enable_autosave en else en) with e | b <;>
      rw [hop] at h
    · exact Except.noConfusion h
    · injection h with h2
      subst h2
      cases b <;> rfl

/-- Witness for C7 at a concrete input. -/
theorem C7_toggle_exit_state_witness :
    toggle_autosave_off (fun b => .ok b) true = .ok true ∧ true = true :=
  ⟨by rfl, (C7_toggle_exit_state (fun b => .ok b) true).1 true (by rfl)⟩

/-- C6: base.py's `save()` checks the INI structural constraint only when
the active format is INI — a violating tree fails with `IniFormatError`
before any write, and non-INI formats never raise it — while
settings_manager.py's `save()` omits the format guard and raises
`IniFormatError` even for a flat tree saved as JSON (the code-bug input). -/
theorem C6_save_ini_check (fmt : Fmt) (store defaults : PTree) :
    (fmt = .ini → valid_ini_format store = false →
      save_base fmt false store defaults = .error .iniFormatError) ∧
    (fmt ≠ .ini → save_base fmt false store defaults = .ok store) ∧
    save_sm .json false (.dcons ['A'] (.leaf 0) .dnil) .dnil =
      .error .iniFormatError := by
  refine ⟨?_, ?_, by decide⟩
  · intro hf hv
    subst hf
    simp [save_base, hv]
  · intro hf
    cases fmt <;> simp_all [save_base]

/-- Witness for C6 at a concrete input: INI format, flat tree. -/
theorem C6_save_ini_check_witness :
    valid_ini_format (PTree.dcons ['A'] (.leaf 0) .dnil) = false ∧
    save_base .ini false (.dcons ['A'] (.leaf 0) .dnil) .dnil =
      .error .iniFormatError :=
  ⟨by decide,
   (C6_save_ini_check .ini (.dcons ['A'] (.leaf 0) .dnil) .dnil).1 rfl (by decide)⟩

/-- C8: evaluating base.py's `sanitize_settings` at the failing input.  With
settings `&#123;"a.b": 1&#125;`-shaped data (a literal dotted key) and empty
defaults, the plan records removal path `"a.b"`, and `_remove_key` raises
KeyError walking the split path; `sanitize_settings` only catches
`SanitizationError`, so the exception surfaces unwrapped — contradicting the
claim (and the method's own docstring) that errors surface as
`SanitizationError`. -/
theorem C8_uncaught_apply_error :
    sanitize_settings (.dcons ['a', '.', 'b'] (.leaf 1) .dnil) .dnil =
      .error .uncaught ∧
    SanErr.uncaught ≠ SanErr.sanitizationError := by
  constructor <;> decide

/-- C1 counterexample: register callback 1, create the nested view
`d["a"] = dict()` (which shares the root's nonempty callback list by
reference), then register callback 2.  `DotDict.add_callback` appends 2 to
the root list and *again* through the child view's `add_callback` — the same
list object — so a subsequent successful depth-0 mutation fires the trace
`[1, 2, 2]`: callback 2, registered once, fires twice, refuting
"every callback registered at the root fires exactly once per mutation". -/
theorem C1_double_fire_counterexample :
    (setAtPath
        (runOps [WOp.addCb 1, WOp.setV [] ['a'] .rnil, WOp.addCb 2])
        [] ['x'] (.prim 5)).map Prod.snd = some [1, 2, 2] ∧
    List.count 2 [1, 2, 2] = 2 := by
  constructor <;> decide

/-- C2 counterexample: create `d["a"] = dict()` and `d["a"]["b"] = dict()`
while the registry is empty (each wrapper then allocates its own fresh
list), then add callback 7 at the root.  `add_callback` reaches the root
list and the direct child's list, but not the grandchild's: a subsequent
mutation through the depth-2 view fires the empty trace, refuting "the
registry observed by every descendant view is the root's single registry". -/
theorem C2_detached_registry_counterexample :
    (setAtPath
        (runOps [WOp.setV [] ['a'] .rnil, WOp.setV [['a']] ['b'] .rnil,
                 WOp.addCb 7])
        [['a'], ['b']] ['x'] (.prim 1)).map Prod.snd = some [] ∧
    regGet (runOps [WOp.setV [] ['a'] .rnil, WOp.setV [['a']] ['b'] .rnil,
                    WOp.addCb 7]).heap
        (runOps [WOp.setV [] ['a'] .rnil, WOp.setV [['a']] ['b'] .rnil,
                 WOp.addCb 7]).rootReg = [7] := by
  constructor <;> decide

/-- C3: evaluating the container at the failing input.  After
`d["a"] = [1]` and `d["a"].append(2)`, the live list view holds both
elements, but `to_dict` exports the `ListWrapper`'s stale `_data` attribute
(`ListWrapper.append` appends to the list contents and never updates
`_data`), so the export misses the mutation — contradicting the documented
purpose that the raw tree stays in sync for serialization at any time. -/
theorem C3_stale_list_export :
    to_dict (runOps [WOp.setV [] ['a'] (.lcons (.prim 1) .lnil),
                     WOp.appendV [['a']] (.prim 2)]).rootData =
      .rcons ['a'] (.lcons (.prim 1) .lnil) .rnil ∧
    elookup (runOps [WOp.setV [] ['a'] (.lcons (.prim 1) .lnil),
                     WOp.appendV [['a']] (.prim 2)]).rootData ['a'] =
      some (.lnode 1 (.lcons (.prim 1) .lnil)
        (.icons (.prim 1) (.icons (.prim 2) .inil))) := by
  constructor <;> decide

/-- C4 counterexample: with the literal dotted key `"a.b"` alongside a
nested `"a" ↦ &#123;"b": …&#125;`, the first sanitization run records removal path
`"a.b"` and `_remove_key` deletes the *nested* `b` instead of the literal
key.  The second run then computes a non-empty plan (removal `"a.b"` and
addition `"a.b"`), and applying it raises (KeyError), so running twice is
not the same as running once. -/
theorem C4_dotted_key_counterexample :
    sanitize_settings
        (.dcons ['a', '.', 'b'] (.leaf 1)
          (.dcons ['a'] (.dcons ['b'] (.leaf 2) .dnil) .dnil))
        (.dcons ['a'] (.dcons ['b'] (.leaf 2) .dnil) .dnil) =
      .ok (.dcons ['a', '.', 'b'] (.leaf 1) (.dcons ['a'] .dnil .dnil)) ∧
    sanitize_plan (.dcons ['a', '.', 'b'] (.leaf 1) (.dcons ['a'] .dnil .dnil))
        (.dcons ['a'] (.dcons ['b'] (.leaf 2) .dnil) .dnil) [] ≠ ([], []) ∧
    sanitize_settings (.dcons ['a', '.', 'b'] (.leaf 1) (.dcons ['a'] .dnil .dnil))
        (.dcons ['a'] (.dcons ['b'] (.leaf 2) .dnil) .dnil) =
      .error .uncaught := by
  refine ⟨by decide, by decide, by decide⟩

/-- C5 counterexample, two parts.  (a) With the dotted literal key `"a.b"`
present, the key path `a.b` is present in both trees with equal scalar
values, yet sanitization deletes it (the dotted removal path aliases the
nested path).  (b) Even with sane keys, a *dict-valued* path present in both
trees has its value changed when it contains an alien nested key. -/
theorem C5_value_changed_counterexample :
    (lookupPath
        (.dcons ['a', '.', 'b'] (.leaf 1)
          (.dcons ['a'] (.dcons ['b'] (.leaf 2) .dnil) .dnil))
        [['a'], ['b']] = some (.leaf 2) ∧
     lookupPath (.dcons ['a'] (.dcons ['b'] (.leaf 2) .dnil) .dnil)
        [['a'], ['b']] = some (.leaf 2) ∧
     sanitize_settings
        (.dcons ['a', '.', 'b'] (.leaf 1)
          (.dcons ['a'] (.dcons ['b'] (.leaf 2) .dnil) .dnil))
        (.dcons ['a'] (.dcons ['b'] (.leaf 2) .dnil) .dnil) =
       .ok (.dcons ['a', '.', 'b'] (.leaf 1) (.dcons ['a'] .dnil .dnil)) ∧
     lookupPath (.dcons ['a', '.', 'b'] (.leaf 1) (.dcons ['a'] .dnil .dnil))
        [['a'], ['b']] = none) ∧
    (sanitize_settings
        (.dcons ['a'] (.dcons ['x'] (.leaf 1) (.dcons ['b'] (.leaf 2) .dnil)) .dnil)
        (.dcons ['a'] (.dcons ['b'] (.leaf 2) .dnil) .dnil) =
       .ok (.dcons ['a'] (.dcons ['b'] (.leaf 2) .dnil) .dnil) ∧
     lookupPath
        (.dcons ['a'] (.dcons ['x'] (.leaf 1) (.dcons ['b'] (.leaf 2) .dnil)) .dnil)
        [['a']] = some (.dcons ['x'] (.leaf 1) (.dcons ['b'] (.leaf 2) .dnil)) ∧
     lookupPath (.dcons ['a'] (.dcons ['b'] (.leaf 2) .dnil) .dnil) [['a']] =
       some (.dcons ['b'] (.leaf 2) .dnil)) := by
  refine ⟨⟨by decide, by decide, by decide, by decide⟩, by decide, by decide, by decide⟩

theorem regGet_append_lt (h : Heap) (l : List Nat) (x : Nat) (hx : x < h.length) :
    regGet (h ++ [l]) x = regGet h x := by
  simp [regGet, List.getD, List.getElem?_append, hx]

theorem regGet_append_self (h : Heap) (l : List Nat) :
    regGet (h ++ [l]) h.length = l := by
  simp [regGet, List.getD]

theorem regGet_set_self (h : Heap) (r : Nat) (l : List Nat) (hr : r < h.length) :
    regGet (h.set r l) r = l := by
  simp [regGet, List.getD, List.getElem?_set_eq, hr]

theorem regGet_set_ne (h : Heap) (r : Nat) (l : List Nat) (x : Nat) (hx : x ≠ r) :
    regGet (h.set r l) x = regGet h x := by
  simp [regGet, List.getD, List.getElem?_set_ne (Ne.symm hx)]

theorem wregs_embedPlain (v : RVal) : wregs (embedPlain v) = [] := by
  cases v <;> rfl

theorem wregs_embedEntries (v : RVal) : wregs (embedEntries v) = [] := by
  induction v with
  | rcons k x rest ihx ihr => simp [embedEntries, wregs, wregs_embedPlain, ihr]
  | _ => rfl

/-- The second heap extends the first: it is at least as long and agrees on
all existing registries. -/
def HeapExtends (h h' : Heap) : Prop :=
  h.length ≤ h'.length ∧ ∀ x, x < h.length → regGet h' x = regGet h x

/-- Every wrapper registry in `w` is allocated in `h'` and holds `c`. -/
def NewRegsOK (h' : Heap) (w : WVal) (c : List Nat) : Prop :=
  ∀ r ∈ wregs w, r < h'.length ∧ regGet h' r = c

theorem HeapExtends.refl (h : Heap) : HeapExtends h h :=
  ⟨le_rfl, fun _ _ => rfl⟩

theorem HeapExtends.trans {h1 h2 h3 : Heap}
    (a : HeapExtends h1 h2) (b : HeapExtends h2 h3) : HeapExtends h1 h3 :=
  ⟨a.1.trans b.1, fun x hx => (b.2 x (lt_of_lt_of_le hx a.1)).trans (a.2 x hx)⟩

theorem NewRegsOK.mono {h1 h2 : Heap} {w : WVal} {c : List Nat}
    (hn : NewRegsOK h1 w c) (he : HeapExtends h1 h2) : NewRegsOK h2 w c := by
  intro r hr
  obtain ⟨hb, hc⟩ := hn r hr
  exact ⟨lt_of_lt_of_le hb he.1, (he.2 r hb).trans hc⟩

theorem pickReg_facts (h : Heap) (reg : Nat) (hreg : reg < h.length) :
    HeapExtends h (pickReg h reg).1 ∧
    (pickReg h reg).2 < (pickReg h reg).1.length ∧
    regGet (pickReg h reg).1 (pickReg h reg).2 = regGet h reg := by
  unfold pickReg
  by_cases hpr : regGet h reg = []
  · rw [if_pos hpr]
    refine ⟨⟨by simp, fun x hx => regGet_append_lt h [] x hx⟩, by simp, ?_⟩
    show regGet (h ++ [[]]) h.length = regGet h reg
    rw [regGet_append_self, hpr]
  · rw [if_neg hpr]
    exact ⟨HeapExtends.refl h, hreg, rfl⟩

theorem wrapList_cons_eq (h : Heap) (reg : Nat) (v rest : RVal) :
    wrapList h reg (.lcons v rest) =
      ((wrapList (wrapV h reg v).1 reg rest).1,
       .icons (wrapV h reg v).2 (wrapList (wrapV h reg v).1 reg rest).2) := by
  cases v <;> rfl

theorem wrapV_lcons_eq (h : Heap) (reg : Nat) (v rest : RVal) :
    wrapV h reg (.lcons v rest) =
      ((wrapList (pickReg h reg).1 (pickReg h reg).2 (.lcons v rest)).1,
       .lnode (pickReg h reg).2 (.lcons v rest)
         (wrapList (pickReg h reg).1 (pickReg h reg).2 (.lcons v rest)).2) := rfl

/-- The central heap facts about `_wrap`: wrapping never disturbs existing
registries (it only appends fresh ones), and every wrapper it creates ends
up with a registry whose contents equal the parent registry's contents —
the parent's own list when that list is nonempty, or a fresh empty list
(equal to the parent's empty contents) otherwise. -/
theorem wrap_regs (t : RVal) : ∀ (h : Heap) (reg : Nat), reg < h.length →
    (HeapExtends h (wrapList h reg t).1 ∧
     NewRegsOK (wrapList h reg t).1 (wrapList h reg t).2 (regGet h reg)) ∧
    (HeapExtends h (wrapV h reg t).1 ∧
     NewRegsOK (wrapV h reg t).1 (wrapV h reg t).2 (regGet h reg)) := by
  induction t with
  | prim n =>
    intro h reg hreg
    exact ⟨⟨HeapExtends.refl h, by intro r hr; simp [wregs] at hr⟩,
           ⟨HeapExtends.refl h, by intro r hr; simp [wregs] at hr⟩⟩
  | rnil =>
    intro h reg hreg
    obtain ⟨extP, bP, rP⟩ := pickReg_facts h reg hreg
    refine ⟨⟨HeapExtends.refl h, by intro r hr; simp [wregs] at hr⟩, extP, ?_⟩
    intro r hr
    simp [wregs] at hr
    subst hr
    exact ⟨bP, rP⟩
  | rcons k x r2 _ _ =>
    intro h reg hreg
    obtain ⟨extP, bP, rP⟩ := pickReg_facts h reg hreg
    refine ⟨⟨HeapExtends.refl h, by intro r hr; simp [wregs] at hr⟩, extP, ?_⟩
    intro r hr
    simp [wregs, wregs_embedEntries, wregs_embedPlain] at hr
    subst hr
    exact ⟨bP, rP⟩
  | lnil =>
    intro h reg hreg
    obtain ⟨extP, bP, rP⟩ := pickReg_facts h reg hreg
    refine ⟨⟨HeapExtends.refl h, by intro r hr; simp [wregs] at hr⟩, extP, ?_⟩
    intro r hr
    simp [wregs] at hr
    subst hr
    exact ⟨bP, rP⟩
  | lcons v rest ihv ihrest =>
    have HA : ∀ (h : Heap) (reg : Nat), reg < h.length →
        HeapExtends h (wrapList h reg (.lcons v rest)).1 ∧
        NewRegsOK (wrapList h reg (.lcons v rest)).1
          (wrapList h reg (.lcons v rest)).2 (regGet h reg) := by
      intro h reg hreg
      rw [wrapList_cons_eq]
      obtain ⟨extW, newW⟩ := (ihv h reg hreg).2
      have hregW : reg < (wrapV h reg v).1.length := lt_of_lt_of_le hreg extW.1
      obtain ⟨extT, newT⟩ := (ihrest (wrapV h reg v).1 reg hregW).1
      have hrg : regGet (wrapV h reg v).1 reg = regGet h reg := extW.2 reg hreg
      refine ⟨extW.trans extT, ?_⟩
      intro r hr
      simp only [wregs] at hr
      rcases List.mem_append.mp hr with h1 | h1
      · exact (newW.mono extT) r h1
      · have hx := newT r h1
        rw [hrg] at hx
        exact hx
    intro h reg hreg
    refine ⟨HA h reg hreg, ?_⟩
    obtain ⟨extP, bP, rP⟩ := pickReg_facts h reg hreg
    rw [wrapV_lcons_eq]
    obtain ⟨extQ, newQ⟩ := HA (pickReg h reg).1 (pickReg h reg).2 bP
    refine ⟨extP.trans extQ, ?_⟩
    intro r hr
    simp only [wregs, List.mem_cons] at hr
    rcases hr with h1 | h1
    · subst h1
      exact ⟨lt_of_lt_of_le bP extQ.1, (extQ.2 _ bP).trans rP⟩
    · have hx := newQ r h1
      rw [rP] at hx
      exact hx

theorem regAppend_length (h : Heap) (r cb : Nat) :
    (regAppend h r cb).length = h.length := by
  simp [regAppend]

theorem mem_regAppend_self (h : Heap) (r cb : Nat) (hr : r < h.length) :
    cb ∈ regGet (regAppend h r cb) r := by
  unfold regAppend
  rw [regGet_set_self h r _ hr]
  exact List.mem_append_right _ (List.mem_singleton.mpr rfl)

theorem mem_regAppend_keep (h : Heap) (r cb x c : Nat) (hc : c ∈ regGet h x) :
    c ∈ regGet (regAppend h r cb) x := by
  unfold regAppend
  by_cases hxr : x = r
  · subst hxr
    by_cases hx : x < h.length
    · rw [regGet_set_self h x _ hx]
      exact List.mem_append_left _ hc
    · rw [List.set_eq_of_length_le (le_of_not_lt hx)]
      exact hc
  · rw [regGet_set_ne h r _ x hxr]
    exact hc

theorem foldl_regAppend_length (cb : Nat) (rs : List Nat) :
    ∀ h : Heap, (rs.foldl (fun h r => regAppend h r cb) h).length = h.length := by
  induction rs with
  | nil => intro h; rfl
  | cons a tl ih =>
    intro h
    rw [List.foldl_cons, ih, regAppend_length]

theorem foldl_regAppend_keep (cb : Nat) (rs : List Nat) :
    ∀ (h : Heap) (x c : Nat), c ∈ regGet h x →
      c ∈ regGet (rs.foldl (fun h r => regAppend h r cb) h) x := by
  induction rs with
  | nil => intro h x c hc; exact hc
  | cons a tl ih =>
    intro h x c hc
    exact ih (regAppend h a cb) x c (mem_regAppend_keep h a cb x c hc)

theorem foldl_regAppend_gain (cb : Nat) (rs : List Nat) :
    ∀ (h : Heap) (r : Nat), r ∈ rs → r < h.length →
      cb ∈ regGet (rs.foldl (fun h r => regAppend h r cb) h) r := by
  induction rs with
  | nil => intro h r hr; cases hr
  | cons a tl ih =>
    intro h r hr hb
    rcases List.mem_cons.mp hr with h1 | h1
    · subst h1
      exact foldl_regAppend_keep cb tl (regAppend h r cb) r cb
        (mem_regAppend_self h r cb hb)
    · exact ih (regAppend h a cb) r h1 (by rw [regAppend_length]; exact hb)

theorem elookup_node_mem_childRegs (data : WVal) (p : Key) (r : Nat) (es : WVal)
    (h : elookup data p = some (.node r es)) : r ∈ childRegs data := by
  induction data with
  | econs k v rest _ ihrest =>
    by_cases hk : k = p
    · subst hk
      rw [elookup, if_pos rfl] at h
      injection h with h2
      subst h2
      simp [childRegs]
    · rw [elookup, if_neg hk] at h
      simp only [childRegs, List.mem_append]
      exact Or.inr (ihrest h)
  | _ => simp [elookup] at h

/-- C2 amended: `DotDict.add_callback` appends the callback to the root's
registry and to the registry of every *direct* (depth-1) child view, so
subsequent successful mutations at depth 0 or depth 1 do invoke the new
callback.  (It does not reach views at depth ≥ 2 whose registries are
detached — created while an ancestor's registry was empty — as the
counterexample shows, so the registry is not one shared object in
general.) -/
theorem C2_add_callback_reaches_depth_one (s : Sys) (cb : Nat)
    (hroot : s.rootReg < s.heap.length)
    (hch : ∀ r ∈ childRegs s.rootData, r < s.heap.length) :
    cb ∈ regGet (add_callback s cb).heap s.rootReg ∧
    (∀ r ∈ childRegs s.rootData, cb ∈ regGet (add_callback s cb).heap r) ∧
    (∀ k v out, setAtPath (add_callback s cb) [] k v = some out → cb ∈ out.2) ∧
    (∀ p k v out, setAtPath (add_callback s cb) [p] k v = some out →
      cb ∈ out.2) := by
  have hr1 : cb ∈ regGet (add_callback s cb).heap s.rootReg := by
    unfold add_callback
    exact foldl_regAppend_keep cb (childRegs s.rootData) _ s.rootReg cb
      (mem_regAppend_self s.heap s.rootReg cb hroot)
  have hr2 : ∀ r ∈ childRegs s.rootData, cb ∈ regGet (add_callback s cb).heap r := by
    intro r hr
    unfold add_callback
    exact foldl_regAppend_gain cb (childRegs s.rootData) _ r hr
      (by rw [regAppend_length]; exact hch r hr)
  have hlen : (add_callback s cb).heap.length = s.heap.length := by
    unfold add_callback
    rw [foldl_regAppend_length, regAppend_length]
  refine ⟨hr1, hr2, ?_, ?_⟩
  · intro k v out hout
    simp only [setAtPath, setIn, Option.map_some'] at hout
    have hb : s.rootReg < (add_callback s cb).heap.length := by
      rw [hlen]; exact hroot
    have ext := ((wrap_regs v (add_callback s cb).heap s.rootReg hb).2).1
    have h2 := Option.some.inj hout
    have hsnd : out.2 =
        regGet (wrapV (add_callback s cb).heap s.rootReg v).1 s.rootReg := by
      rw [← h2]
      rfl
    rw [hsnd, ext.2 s.rootReg hb]
    exact hr1
  · intro p k v out hout
    simp only [setAtPath, setIn] at hout
    split at hout
    next r es heq =>
      have hmem : r ∈ childRegs s.rootData :=
        elookup_node_mem_childRegs s.rootData p r es heq
      have hb : r < (add_callback s cb).heap.length := by
        rw [hlen]; exact hch r hmem
      have ext := ((wrap_regs v (add_callback s cb).heap r hb).2).1
      simp only [setIn, Option.map_some'] at hout
      have h2 := Option.some.inj hout
      have hsnd : out.2 = regGet (wrapV (add_callback s cb).heap r v).1 r := by
        rw [← h2]
      rw [hsnd, ext.2 r hb]
      exact hr2 r hmem
    next _ _ =>
      simp at hout

/-- Witness for C2 at a concrete input: a container with one child view
created while the registry was empty; adding callback 9 afterwards reaches
the root registry. -/
theorem C2_add_callback_reaches_depth_one_witness :
    (runOps [WOp.setV [] ['a'] .rnil]).rootReg <
        (runOps [WOp.setV [] ['a'] .rnil]).heap.length ∧
    9 ∈ regGet (add_callback (runOps [WOp.setV [] ['a'] .rnil]) 9).heap
        (runOps [WOp.setV [] ['a'] .rnil]).rootReg :=
  ⟨by decide,
   (C2_add_callback_reaches_depth_one (runOps [WOp.setV [] ['a'] .rnil]) 9
      (by decide) (by decide)).1⟩

theorem wregs_eset_sub (d : WVal) (k : Key) (w : WVal) :
    ∀ r ∈ wregs (eset d k w), r ∈ wregs d ∨ r ∈ wregs w := by
  induction d with
  | econs k' v rest _ ihrest =>
    intro r hr
    by_cases hk : k' = k
    · rw [eset, if_pos hk] at hr
      simp only [wregs, List.mem_append] at hr ⊢
      rcases hr with h1 | h1
      · exact Or.inr h1
      · exact Or.inl (Or.inr h1)
    · rw [eset, if_neg hk] at hr
      simp only [wregs, List.mem_append] at hr ⊢
      rcases hr with h1 | h1
      · exact Or.inl (Or.inl h1)
      · rcases ihrest r h1 with h2 | h2
        · exact Or.inl (Or.inr h2)
        · exact Or.inr h2
  | _ =>
    intro r hr
    simp only [eset, wregs, List.append_nil, List.mem_append] at hr <;>
      first
        | (rcases hr with h1 | h1
           · exact Or.inr h1
           · cases h1)
        | exact Or.inr hr

theorem wregs_edel_sub (d : WVal) (k : Key) :
    ∀ r ∈ wregs (edel d k), r ∈ wregs d := by
  induction d with
  | econs k' v rest _ ihrest =>
    intro r hr
    by_cases hk : k' = k
    · rw [edel, if_pos hk] at hr
      simp only [wregs, List.mem_append]
      exact Or.inr hr
    · rw [edel, if_neg hk] at hr
      simp only [wregs, List.mem_append] at hr ⊢
      rcases hr with h1 | h1
      · exact Or.inl h1
      · exact Or.inr (ihrest r h1)
  | _ => intro r hr; exact hr

theorem wregs_iappend_sub (items : WVal) (w : WVal) :
    ∀ r ∈ wregs (iappend items w), r ∈ wregs items ∨ r ∈ wregs w := by
  induction items with
  | icons v rest _ ihrest =>
    intro r hr
    simp only [iappend, wregs, List.mem_append] at hr ⊢
    rcases hr with h1 | h1
    · exact Or.inl (Or.inl h1)
    · rcases ihrest r h1 with h2 | h2
      · exact Or.inl (Or.inr h2)
      · exact Or.inr h2
  | _ =>
    intro r hr
    simp only [iappend, wregs, List.mem_append, List.append_nil] at hr
    exact Or.inr hr

theorem elookup_wregs_sub (d : WVal) (p : Key) (v : WVal)
    (h : elookup d p = some v) : ∀ r ∈ wregs v, r ∈ wregs d := by
  induction d with
  | econs k' v' rest _ ihrest =>
    by_cases hk : k' = p
    · rw [elookup, if_pos hk] at h
      injection h with h2
      subst h2
      intro r hr
      simp only [wregs, List.mem_append]
      exact Or.inl hr
    · rw [elookup, if_neg hk] at h
      intro r hr
      simp only [wregs, List.mem_append]
      exact Or.inr (ihrest h r hr)
  | _ => simp [elookup] at h

/-- Trace and heap facts for a successful `set` through a chain of views
whose registries all hold exactly `cbs`: the fired trace is exactly `cbs`,
existing registries are untouched, and every wrapper in the updated data
again has a registry holding `cbs`. -/
theorem setIn_spec (path : List Key) :
    ∀ (h : Heap) (reg : Nat) (data : WVal) (k : Key) (v : RVal) (cbs : List Nat),
      reg < h.length → regGet h reg = cbs →
      (∀ r ∈ wregs data, r < h.length ∧ regGet h r = cbs) →
      ∀ out, setIn h reg data path k v = some out →
        out.2.2 = cbs ∧ HeapExtends h out.1 ∧
        (∀ r ∈ wregs out.2.1, r < out.1.length ∧ regGet out.1 r = cbs) := by
  induction path with
  | nil =>
    intro h reg data k v cbs hreg hrc hdata out hout
    simp only [setIn, Option.map_some'] at hout
    have h2 := Option.some.inj hout
    obtain ⟨ext, newr⟩ := (wrap_regs v h reg hreg).2
    have e1 : out.2.2 = regGet (wrapV h reg v).1 reg := by rw [← h2]
    have e2 : out.1 = (wrapV h reg v).1 := by rw [← h2]
    have e3 : out.2.1 = eset data k (wrapV h reg v).2 := by rw [← h2]
    refine ⟨by rw [e1, ext.2 reg hreg, hrc], by rw [e2]; exact ext, ?_⟩
    intro r hr
    rw [e3] at hr
    rw [e2]
    rcases wregs_eset_sub data k (wrapV h reg v).2 r hr with h1 | h1
    · obtain ⟨hb, hc⟩ := hdata r h1
      exact ⟨lt_of_lt_of_le hb ext.1, (ext.2 r hb).trans hc⟩
    · obtain ⟨hb, hc⟩ := newr r h1
      rw [hrc] at hc
      exact ⟨hb, hc⟩
  | cons p rest ih =>
    intro h reg data k v cbs hreg hrc hdata out hout
    simp only [setIn] at hout
    split at hout
    next r es heq =>
      have hsub := elookup_wregs_sub data p (.node r es) heq
      have hrdata : r ∈ wregs data := hsub r (by simp [wregs])
      have hesdata : ∀ x ∈ wregs es, x ∈ wregs data := by
        intro x hx
        exact hsub x (by simp [wregs]; exact Or.inr hx)
      obtain ⟨hrb, hrcr⟩ := hdata r hrdata
      rcases hin : setIn h r es rest k v with _ | t
      · rw [hin] at hout; cases hout
      · rw [hin, Option.map_some'] at hout
        have h2 := Option.some.inj hout
        obtain ⟨ht, hext, hnew⟩ := ih h r es k v cbs hrb hrcr
          (fun x hx => hdata x (hesdata x hx)) t hin
        have e1 : out.2.2 = t.2.2 := by rw [← h2]
        have e2 : out.1 = t.1 := by rw [← h2]
        have e3 : out.2.1 = eset data p (.node r t.2.1) := by rw [← h2]
        refine ⟨by rw [e1]; exact ht, by rw [e2]; exact hext, ?_⟩
        intro x hx
        rw [e3] at hx
        rw [e2]
        rcases wregs_eset_sub data p (.node r t.2.1) x hx with h1 | h1
        · obtain ⟨hb, hc⟩ := hdata x h1
          exact ⟨lt_of_lt_of_le hb hext.1, (hext.2 x hb).trans hc⟩
        · simp only [wregs, List.mem_cons] at h1
          rcases h1 with h1 | h1
          · subst h1
            exact ⟨lt_of_lt_of_le hrb hext.1, (hext.2 x hrb).trans hrcr⟩
          · exact hnew x h1
    next _ _ =>
      cases hout

/-- Trace and data facts for a successful `delete` through a chain of views
whose registries all hold exactly `cbs`. -/
theorem delIn_spec (path : List Key) :
    ∀ (h : Heap) (reg : Nat) (data : WVal) (k : Key) (cbs : List Nat),
      reg < h.length → regGet h reg = cbs →
      (∀ r ∈ wregs data, r < h.length ∧ regGet h r = cbs) →
      ∀ out, delIn h reg data path k = some out →
        out.2.2 = cbs ∧ HeapExtends h out.1 ∧
        (∀ r ∈ wregs out.2.1, r < out.1.length ∧ regGet out.1 r = cbs) := by
  induction path with
  | nil =>
    intro h reg data k cbs hreg hrc hdata out hout
    simp only [delIn] at hout
    split at hout
    next w heq =>
      have h2 := Option.some.inj hout
      have e1 : out.2.2 = regGet h reg := by rw [← h2]
      have e2 : out.1 = h := by rw [← h2]
      have e3 : out.2.1 = edel data k := by rw [← h2]
      refine ⟨by rw [e1, hrc], by rw [e2]; exact HeapExtends.refl h, ?_⟩
      intro r hr
      rw [e3] at hr
      rw [e2]
      exact hdata r (wregs_edel_sub data k r hr)
    next heq =>
      cases hout
  | cons p rest ih =>
    intro h reg data k cbs hreg hrc hdata out hout
    simp only [delIn] at hout
    split at hout
    next r es heq =>
      have hsub := elookup_wregs_sub data p (.node r es) heq
      have hrdata : r ∈ wregs data := hsub r (by simp [wregs])
      have hesdata : ∀ x ∈ wregs es, x ∈ wregs data := by
        intro x hx
        exact hsub x (by simp [wregs]; exact Or.inr hx)
      obtain ⟨hrb, hrcr⟩ := hdata r hrdata
      rcases hin : delIn h r es rest k with _ | t
      · rw [hin] at hout; cases hout
      · rw [hin, Option.map_some'] at hout
        have h2 := Option.some.inj hout
        obtain ⟨ht, hext, hnew⟩ := ih h r es k cbs hrb hrcr
          (fun x hx => hdata x (hesdata x hx)) t hin
        have e1 : out.2.2 = t.2.2 := by rw [← h2]
        have e2 : out.1 = t.1 := by rw [← h2]
        have e3 : out.2.1 = eset data p (.node r t.2.1) := by rw [← h2]
        refine ⟨by rw [e1]; exact ht, by rw [e2]; exact hext, ?_⟩
        intro x hx
        rw [e3] at hx
        rw [e2]
        rcases wregs_eset_sub data p (.node r t.2.1) x hx with h1 | h1
        · obtain ⟨hb, hc⟩ := hdata x h1
          exact ⟨lt_of_lt_of_le hb hext.1, (hext.2 x hb).trans hc⟩
        · simp only [wregs, List.mem_cons] at h1
          rcases h1 with h1 | h1
          · subst h1
            exact ⟨lt_of_lt_of_le hrb hext.1, (hext.2 x hrb).trans hrcr⟩
          · exact hnew x h1
    next _ _ =>
      cases hout

/-- Trace and data facts for a successful list `append` through a chain of
views whose registries all hold exactly `cbs`. -/
theorem appendIn_spec (path : List Key) :
    ∀ (h : Heap) (data : WVal) (item : RVal) (cbs : List Nat),
      (∀ r ∈ wregs data, r < h.length ∧ regGet h r = cbs) →
      ∀ out, appendIn h data path item = some out →
        out.2.2 = cbs ∧ HeapExtends h out.1 ∧
        (∀ r ∈ wregs out.2.1, r < out.1.length ∧ regGet out.1 r = cbs) := by
  induction path with
  | nil =>
    intro h data item cbs hdata out hout
    simp only [appendIn] at hout
    cases hout
  | cons p rest ih =>
    intro h data item cbs hdata out hout
    cases rest with
    | nil =>
      simp only [appendIn] at hout
      split at hout
      next r raw items heq =>
        have hsub := elookup_wregs_sub data p (.lnode r raw items) heq
        have hrdata : r ∈ wregs data := hsub r (by simp [wregs])
        have hitems : ∀ x ∈ wregs items, x ∈ wregs data := by
          intro x hx
          exact hsub x (by simp [wregs]; exact Or.inr hx)
        obtain ⟨hrb, hrcr⟩ := hdata r hrdata
        have h2 := Option.some.inj hout
        obtain ⟨ext, newr⟩ := (wrap_regs item h r hrb).2
        have e1 : out.2.2 = regGet (wrapV h r item).1 r := by rw [← h2]
        have e2 : out.1 = (wrapV h r item).1 := by rw [← h2]
        have e3 : out.2.1 =
            eset data p (.lnode r raw (iappend items (wrapV h r item).2)) := by
          rw [← h2]
        refine ⟨by rw [e1, ext.2 r hrb, hrcr], by rw [e2]; exact ext, ?_⟩
        intro x hx
        rw [e3] at hx
        rw [e2]
        rcases wregs_eset_sub data p
            (.lnode r raw (iappend items (wrapV h r item).2)) x hx with h1 | h1
        · obtain ⟨hb, hc⟩ := hdata x h1
          exact ⟨lt_of_lt_of_le hb ext.1, (ext.2 x hb).trans hc⟩
        · simp only [wregs, List.mem_cons] at h1
          rcases h1 with h1 | h1
          · subst h1
            exact ⟨lt_of_lt_of_le hrb ext.1, (ext.2 x hrb).trans hrcr⟩
          · rcases wregs_iappend_sub items (wrapV h r item).2 x h1 with h3 | h3
            · obtain ⟨hb, hc⟩ := hdata x (hitems x h3)
              exact ⟨lt_of_lt_of_le hb ext.1, (ext.2 x hb).trans hc⟩
            · obtain ⟨hb, hc⟩ := newr x h3
              rw [hrcr] at hc
              exact ⟨hb, hc⟩
      next _ _ =>
        cases hout
    | cons q rest2 =>
      simp only [appendIn] at hout
      split at hout
      next r es heq =>
        have hsub := elookup_wregs_sub data p (.node r es) heq
        have hesdata : ∀ x ∈ wregs es, x ∈ wregs data := by
          intro x hx
          exact hsub x (by simp [wregs]; exact Or.inr hx)
        have hrdata : r ∈ wregs data := hsub r (by simp [wregs])
        obtain ⟨hrb, hrcr⟩ := hdata r hrdata
        rcases hin : appendIn h es (q :: rest2) item with _ | t
        · rw [hin] at hout; cases hout
        · rw [hin, Option.map_some'] at hout
          have h2 := Option.some.inj hout
          obtain ⟨ht, hext, hnew⟩ := ih h es item cbs
            (fun x hx => hdata x (hesdata x hx)) t hin
          have e1 : out.2.2 = t.2.2 := by rw [← h2]
          have e2 : out.1 = t.1 := by rw [← h2]
          have e3 : out.2.1 = eset data p (.node r t.2.1) := by rw [← h2]
          refine ⟨by rw [e1]; exact ht, by rw [e2]; exact hext, ?_⟩
          intro x hx
          rw [e3] at hx
          rw [e2]
          rcases wregs_eset_sub data p (.node r t.2.1) x hx with h1 | h1
          · obtain ⟨hb, hc⟩ := hdata x h1
            exact ⟨lt_of_lt_of_le hb hext.1, (hext.2 x hb).trans hc⟩
          · simp only [wregs, List.mem_cons] at h1
            rcases h1 with h1 | h1
            · subst h1
              exact ⟨lt_of_lt_of_le hrb hext.1, (hext.2 x hrb).trans hrcr⟩
            · exact hnew x h1
      next _ _ =>
        cases hout

/-- The disciplined-container invariant: the root registry holds exactly the
registration list `cbs`, and so does the registry of every wrapper anywhere
in the data (all within heap bounds). -/
def sysInv (s : Sys) (cbs : List Nat) : Prop :=
  s.rootReg < s.heap.length ∧ regGet s.heap s.rootReg = cbs ∧
  ∀ r ∈ wregs s.rootData, r < s.heap.length ∧ regGet s.heap r = cbs

theorem runOps_addCb_phase (cbs : List Nat) :
    ∀ l : List Nat,
      List.foldl stepOp ⟨[l], 0, .enil⟩ (cbs.map WOp.addCb) =
        ⟨[l ++ cbs], 0, .enil⟩ := by
  induction cbs with
  | nil => intro l; simp
  | cons c tl ih =>
    intro l
    have hstep : stepOp ⟨[l], 0, .enil⟩ (.addCb c) = ⟨[l ++ [c]], 0, .enil⟩ := rfl
    rw [List.map_cons, List.foldl_cons, hstep, ih, List.append_assoc]
    rfl

theorem sysInv_step (s : Sys) (cbs : List Nat) (op : WOp)
    (hinv : sysInv s cbs) (hmut : isMut op = true) :
    sysInv (stepOp s op) cbs := by
  obtain ⟨hb, hc, hdata⟩ := hinv
  cases op with
  | addCb c => simp [isMut] at hmut
  | setV p k v =>
    simp only [stepOp]
    rcases hset : setAtPath s p k v with _ | t
    · exact ⟨hb, hc, hdata⟩
    · simp only [setAtPath] at hset
      rcases hin : setIn s.heap s.rootReg s.rootData p k v with _ | u
      · rw [hin] at hset; cases hset
      · rw [hin, Option.map_some'] at hset
        have h2 := Option.some.inj hset
        obtain ⟨_, hext, hnew⟩ := setIn_spec p s.heap s.rootReg s.rootData
          k v cbs hb hc hdata u hin
        have e1 : t.1 = ⟨u.1, s.rootReg, u.2.1⟩ := by rw [← h2]
        show sysInv t.1 cbs
        rw [e1]
        exact ⟨lt_of_lt_of_le hb hext.1, (hext.2 _ hb).trans hc, hnew⟩
  | delV p k =>
    simp only [stepOp]
    rcases hset : delAtPath s p k with _ | t
    · exact ⟨hb, hc, hdata⟩
    · simp only [delAtPath] at hset
      rcases hin : delIn s.heap s.rootReg s.rootData p k with _ | u
      · rw [hin] at hset; cases hset
      · rw [hin, Option.map_some'] at hset
        have h2 := Option.some.inj hset
        obtain ⟨_, hext, hnew⟩ := delIn_spec p s.heap s.rootReg s.rootData
          k cbs hb hc hdata u hin
        have e1 : t.1 = ⟨u.1, s.rootReg, u.2.1⟩ := by rw [← h2]
        show sysInv t.1 cbs
        rw [e1]
        exact ⟨lt_of_lt_of_le hb hext.1, (hext.2 _ hb).trans hc, hnew⟩
  | appendV p it =>
    simp only [stepOp]
    rcases hset : appendAtPath s p it with _ | t
    · exact ⟨hb, hc, hdata⟩
    · simp only [appendAtPath] at hset
      rcases hin : appendIn s.heap s.rootData p it with _ | u
      · rw [hin] at hset; cases hset
      · rw [hin, Option.map_some'] at hset
        have h2 := Option.some.inj hset
        obtain ⟨_, hext, hnew⟩ := appendIn_spec p s.heap s.rootData
          it cbs hdata u hin
        have e1 : t.1 = ⟨u.1, s.rootReg, u.2.1⟩ := by rw [← h2]
        show sysInv t.1 cbs
        rw [e1]
        exact ⟨lt_of_lt_of_le hb hext.1, (hext.2 _ hb).trans hc, hnew⟩

theorem sysInv_foldl (cbs : List Nat) (muts : List WOp) :
    ∀ s : Sys, (∀ op ∈ muts, isMut op = true) → sysInv s cbs →
      sysInv (List.foldl stepOp s muts) cbs := by
  induction muts with
  | nil => intro s _ hinv; exact hinv
  | cons op tl ih =>
    intro s hmut hinv
    rw [List.foldl_cons]
    exact ih (stepOp s op) (fun o ho => hmut o (List.mem_cons_of_mem op ho))
      (sysInv_step s cbs op hinv (hmut op (List.mem_cons_self op tl)))

/-- C1 amended: for a container whose root callbacks are all registered
before any mutation occurs (hence before any nested view exists), every
successful mutation — `set` or `delete` at any view depth, and list
`append` — fires exactly the registration list `cbs`, in registration
order, once per registered callback, synchronously as part of the
operation; and a failed (key-not-found) delete fires no callback and leaves
the container state unchanged.  (Without the registration-first proviso the
claim fails: see the double-fire counterexample.) -/
theorem C1_registered_first_traces (cbs : List Nat) (muts : List WOp)
    (hmut : ∀ op ∈ muts, isMut op = true) :
    (∀ path k v out,
       setAtPath (runOps (cbs.map WOp.addCb ++ muts)) path k v = some out →
       out.2 = cbs) ∧
    (∀ path k out,
       delAtPath (runOps (cbs.map WOp.addCb ++ muts)) path k = some out →
       out.2 = cbs) ∧
    (∀ path it out,
       appendAtPath (runOps (cbs.map WOp.addCb ++ muts)) path it = some out →
       out.2 = cbs) ∧
    (∀ path k, delAtPath (runOps (cbs.map WOp.addCb ++ muts)) path k = none →
       stepOp (runOps (cbs.map WOp.addCb ++ muts)) (.delV path k) =
         runOps (cbs.map WOp.addCb ++ muts)) := by
  have hinv : sysInv (runOps (cbs.map WOp.addCb ++ muts)) cbs := by
    rw [runOps, List.foldl_append]
    rw [show initSys = (⟨[[]], 0, .enil⟩ : Sys) from rfl, runOps_addCb_phase cbs []]
    refine sysInv_foldl cbs muts _ hmut ?_
    refine ⟨by simp, by simp [regGet], ?_⟩
    intro r hr
    simp [wregs] at hr
  obtain ⟨hb, hc, hdata⟩ := hinv
  refine ⟨?_, ?_, ?_, ?_⟩
  · intro path k v out hout
    simp only [setAtPath] at hout
    rcases hin : setIn (runOps (cbs.map WOp.addCb ++ muts)).heap
        (runOps (cbs.map WOp.addCb ++ muts)).rootReg
        (runOps (cbs.map WOp.addCb ++ muts)).rootData path k v with _ | u
    · rw [hin] at hout; cases hout
    · rw [hin, Option.map_some'] at hout
      have h2 := Option.some.inj hout
      obtain ⟨ht, _, _⟩ := setIn_spec path _ _ _ k v cbs hb hc hdata u hin
      have e1 : out.2 = u.2.2 := by rw [← h2]
      rw [e1, ht]
  · intro path k out hout
    simp only [delAtPath] at hout
    rcases hin : delIn (runOps (cbs.map WOp.addCb ++ muts)).heap
        (runOps (cbs.map WOp.addCb ++ muts)).rootReg
        (runOps (cbs.map WOp.addCb ++ muts)).rootData path k with _ | u
    · rw [hin] at hout; cases hout
    · rw [hin, Option.map_some'] at hout
      have h2 := Option.some.inj hout
      obtain ⟨ht, _, _⟩ := delIn_spec path _ _ _ k cbs hb hc hdata u hin
      have e1 : out.2 = u.2.2 := by rw [← h2]
      rw [e1, ht]
  · intro path it out hout
    simp only [appendAtPath] at hout
    rcases hin : appendIn (runOps (cbs.map WOp.addCb ++ muts)).heap
        (runOps (cbs.map WOp.addCb ++ muts)).rootData path it with _ | u
    · rw [hin] at hout; cases hout
    · rw [hin, Option.map_some'] at hout
      have h2 := Option.some.inj hout
      obtain ⟨ht, _, _⟩ := appendIn_spec path _ _ it cbs hdata u hin
      have e1 : out.2 = u.2.2 := by rw [← h2]
      rw [e1, ht]
  · intro path k hnone
    simp [stepOp, hnone]

/-- Witness for C1 at a concrete input: one callback registered first, one
nested view, then a depth-1 mutation fires exactly that callback. -/
theorem C1_registered_first_traces_witness :
    (∀ op ∈ [WOp.setV [] ['a'] RVal.rnil], isMut op = true) ∧
    (setAtPath (runOps (List.map WOp.addCb [5] ++ [WOp.setV [] ['a'] RVal.rnil]))
        [['a']] ['b'] (.prim 1)).map Prod.snd = some [5] := by
  refine ⟨by decide, ?_⟩
  have h := (C1_registered_first_traces [5] [WOp.setV [] ['a'] RVal.rnil]
    (by decide)).1
  rcases hs : setAtPath (runOps (List.map WOp.addCb [5] ++
      [WOp.setV [] ['a'] RVal.rnil])) [['a']] ['b'] (.prim 1) with _ | out
  · exact absurd hs (by decide)
  · rw [Option.map_some', h [['a']] ['b'] (.prim 1) out hs]

theorem goodT_dcons {k : Key} {v rest : PTree} (h : goodT (.dcons k v rest) = true) :
    goodKey k = true ∧ containsKey rest k = false ∧ isDict rest = true ∧
    goodT v = true ∧ goodT rest = true := by
  simp only [goodT, Bool.and_eq_true, Bool.not_eq_true'] at h
  exact ⟨h.1.1.1.1, h.1.1.1.2, h.1.1.2, h.1.2, h.2⟩

theorem lookupKey_size {t : PTree} {k : Key} {v : PTree}
    (h : lookupKey t k = some v) : sizeOf v < sizeOf t := by
  induction t with
  | dcons k' v' rest _ ihrest =>
    by_cases hk : k' = k
    · rw [lookupKey, if_pos hk] at h
      injection h with h2
      subst h2
      simp
      omega
    · rw [lookupKey, if_neg hk] at h
      have := ihrest h
      simp
      omega
  | _ => simp [lookupKey] at h

theorem goodT_lookup {t : PTree} {k : Key} {v : PTree}
    (hg : goodT t = true) (h : lookupKey t k = some v) : goodT v = true := by
  induction t with
  | dcons k' v' rest _ ihrest =>
    obtain ⟨_, _, _, hgv, hgrest⟩ := goodT_dcons hg
    by_cases hk : k' = k
    · rw [lookupKey, if_pos hk] at h
      injection h with h2
      subst h2
      exact hgv
    · rw [lookupKey, if_neg hk] at h
      exact ihrest hgrest h
  | _ => simp [lookupKey] at h

theorem goodKey_lookup {t : PTree} {k : Key} {v : PTree}
    (hg : goodT t = true) (h : lookupKey t k = some v) : goodKey k = true := by
  induction t with
  | dcons k' v' rest _ ihrest =>
    obtain ⟨hgk, _, _, _, hgrest⟩ := goodT_dcons hg
    by_cases hk : k' = k
    · subst hk
      exact hgk
    · rw [lookupKey, if_neg hk] at h
      exact ihrest hgrest h
  | _ => simp [lookupKey] at h

theorem containsKey_dcons (k' : Key) (v rest : PTree) (k : Key) :
    containsKey (.dcons k' v rest) k =
      (decide (k' = k) || containsKey rest k) := by
  by_cases hk : k' = k
  · simp [containsKey, lookupKey, hk]
  · simp [containsKey, lookupKey, hk]

theorem splitDot_ne_nil (p : List Char) : splitDot p ≠ [] := by
  induction p with
  | nil => simp [splitDot]
  | cons c cs ih =>
    simp only [splitDot]
    by_cases hc : c = '.'
    · simp [hc]
    · rcases hr : splitDot cs with _ | ⟨s, rest⟩
      · exact absurd hr ih
      · simp [hc, hr]

theorem splitDot_nodot {k : List Char} (h : '.' ∉ k) : splitDot k = [k] := by
  induction k with
  | nil => rfl
  | cons c cs ih =>
    have hc : c ≠ '.' := fun he => h (by rw [he]; exact List.mem_cons_self _ _)
    have hcs : '.' ∉ cs := fun hm => h (List.mem_cons_of_mem _ hm)
    simp only [splitDot, if_neg hc, ih hcs]

theorem splitDot_append_dot {k : List Char} (h : '.' ∉ k) :
    ∀ p : List Char, splitDot (p ++ '.' :: k) = splitDot p ++ [k] := by
  intro p
  induction p with
  | nil => simp [splitDot, splitDot_nodot h]
  | cons c cs ih =>
    by_cases hc : c = '.'
    · subst hc
      simp [splitDot, ih]
    · rcases hr : splitDot cs with _ | ⟨s, rest⟩
      · exact absurd hr (splitDot_ne_nil cs)
      · simp [splitDot, hc, ih, hr]

theorem goodKey_parts {k : Key} (h : goodKey k = true) : k ≠ [] ∧ '.' ∉ k := by
  simp only [goodKey, Bool.and_eq_true, decide_eq_true_eq] at h
  exact h

theorem joinPath_ne_nil {k : Key} (hk : k ≠ []) (p : List Char) :
    joinPath p k ≠ [] := by
  unfold joinPath
  by_cases hp : p = []
  · simp [hp, hk]
  · simp [hp]

/-- The path segments a dotted path decodes to, with the empty prefix
decoding to no segments (matching `dict_path = ""` at the top level). -/
def segsOf (p : List Char) : List (List Char) :=
  if p = [] then [] else splitDot p

theorem splitDot_joinPath {k : Key} (hk : goodKey k = true) (p : List Char) :
    splitDot (joinPath p k) = segsOf p ++ [k] := by
  obtain ⟨_, hdot⟩ := goodKey_parts hk
  unfold joinPath segsOf
  by_cases hp : p = []
  · simp [hp, splitDot_nodot hdot]
  · simp [hp, splitDot_append_dot hdot]

theorem segsOf_joinPath {k : Key} (hk : goodKey k = true) (p : List Char) :
    segsOf (joinPath p k) = segsOf p ++ [k] := by
  have h1 : joinPath p k ≠ [] := joinPath_ne_nil (goodKey_parts hk).1 p
  rw [segsOf, if_neg h1]
  exact splitDot_joinPath hk p

theorem encFrom_cons (p : List Char) (k : Key) (segs : List Key) :
    encFrom p (k :: segs) = encFrom (joinPath p k) segs := rfl

theorem splitDot_encFrom :
    ∀ (segs : List Key) (p : List Char), segs ≠ [] →
      (∀ k ∈ segs, goodKey k = true) →
      splitDot (encFrom p segs) = segsOf p ++ segs := by
  intro segs
  induction segs with
  | nil => intro p h; exact absurd rfl h
  | cons k rest ih =>
    intro p _ hgood
    rcases rest with _ | ⟨k2, rest2⟩
    · show splitDot (joinPath p k) = segsOf p ++ [k]
      exact splitDot_joinPath (hgood k (List.mem_cons_self _ _)) p
    · rw [encFrom_cons,
        ih (joinPath p k) (by simp) (fun x hx => hgood x (List.mem_cons_of_mem _ hx)),
        segsOf_joinPath (hgood k (List.mem_cons_self _ _)), List.append_assoc]
      rfl

theorem remSegs_shape (s : PTree) : ∀ ds : PTree, goodT s = true →
    ∀ π ∈ planSegsRem s ds,
      (∃ k π2, π = k :: π2 ∧ containsKey s k = true) ∧
      (∀ k ∈ π, goodKey k = true) := by
  induction s with
  | dcons k v rest ihv ihrest =>
    intro ds hg π hπ
    obtain ⟨hgk, hnc, _, hgv, hgrest⟩ := goodT_dcons hg
    simp only [planSegsRem, List.mem_append] at hπ
    rcases hπ with hπ | hπ
    · rcases hlk : lookupKey ds k with _ | dv
      · rw [hlk] at hπ
        simp at hπ
        subst hπ
        refine ⟨⟨k, [], rfl, by simp [containsKey, lookupKey]⟩, ?_⟩
        intro x hx
        simp at hx
        subst hx
        exact hgk
      · rw [hlk] at hπ
        have hπ2 : π ∈ (if (isDict v && isDict dv) = true then
            List.map (fun x => k :: x) (planSegsRem v dv) else []) := hπ
        clear hπ
        rename' hπ2 => hπ
        by_cases hd : (isDict v && isDict dv) = true
        · rw [if_pos hd] at hπ
          simp only [List.mem_map] at hπ
          obtain ⟨π2, hmem, heq⟩ := hπ
          subst heq
          obtain ⟨_, hgood2⟩ := ihv dv hgv π2 hmem
          refine ⟨⟨k, π2, rfl, by simp [containsKey, lookupKey]⟩, ?_⟩
          intro x hx
          rcases List.mem_cons.mp hx with h1 | h1
          · subst h1; exact hgk
          · exact hgood2 x h1
        · rw [if_neg hd] at hπ
          cases hπ
    · obtain ⟨⟨k2, π2, heq, hc⟩, hgood2⟩ := ihrest ds hgrest π hπ
      refine ⟨⟨k2, π2, heq, ?_⟩, hgood2⟩
      rw [containsKey_dcons]
      simp [hc]
  | _ => intro ds _ π hπ; simp [planSegsRem] at hπ

theorem missingSegs_shape (ds : PTree) : ∀ s : PTree, goodT ds = true →
    ∀ kv ∈ missingSegs ds s,
      (∃ k, kv.1 = [k] ∧ containsKey ds k = true ∧ containsKey s k = false ∧
        lookupKey ds k = some kv.2) ∧
      (∀ k ∈ kv.1, goodKey k = true) := by
  induction ds with
  | dcons k dv rest _ ihrest =>
    intro s hg kv hkv
    obtain ⟨hgk, hnc, _, hgv, hgrest⟩ := goodT_dcons hg
    simp only [missingSegs] at hkv
    by_cases hc : containsKey s k = true
    · rw [if_pos hc] at hkv
      simp only [List.nil_append] at hkv
      obtain ⟨⟨k2, heq, hc2, hs2, hl2⟩, hgood2⟩ := ihrest s hgrest kv hkv
      refine ⟨⟨k2, heq, ?_, hs2, ?_⟩, hgood2⟩
      · rw [containsKey_dcons]; simp [hc2]
      · rw [lookupKey]
        have hk2 : k ≠ k2 := by
          intro he
          subst he
          simp [containsKey, hl2] at hnc
        rw [if_neg hk2]
        exact hl2
    · rw [if_neg hc] at hkv
      rcases List.mem_cons.mp hkv with h1 | h1
      · subst h1
        refine ⟨⟨k, rfl, by simp [containsKey, lookupKey],
            by simp at hc; exact hc, by simp [lookupKey]⟩, ?_⟩
        intro x hx
        simp at hx
        subst hx
        exact hgk
      · obtain ⟨⟨k2, heq, hc2, hs2, hl2⟩, hgood2⟩ := ihrest s hgrest kv h1
        refine ⟨⟨k2, heq, ?_, hs2, ?_⟩, hgood2⟩
        · rw [containsKey_dcons]; simp [hc2]
        · rw [lookupKey]
          have hk2 : k ≠ k2 := by
            intro he
            subst he
            simp [containsKey, hl2] at hnc
          rw [if_neg hk2]
          exact hl2
  | _ => intro s _ kv hkv; simp [missingSegs] at hkv

theorem auxSegs_shape (s : PTree) : ∀ ds : PTree, goodT s = true → goodT ds = true →
    ∀ kv ∈ planSegsAddAux s ds,
      (∃ k π2, kv.1 = k :: π2 ∧ π2 ≠ [] ∧ containsKey s k = true) ∧
      (∀ k ∈ kv.1, goodKey k = true) := by
  induction s with
  | dcons k v rest ihv ihrest =>
    intro ds hg hgds kv hkv
    obtain ⟨hgk, hnc, _, hgv, hgrest⟩ := goodT_dcons hg
    simp only [planSegsAddAux, List.mem_append] at hkv
    rcases hkv with hkv | hkv
    · rcases hlk : lookupKey ds k with _ | dv
      · rw [hlk] at hkv
        simp at hkv
      · rw [hlk] at hkv
        have hkv2 : kv ∈ (if (isDict v && isDict dv) = true then
            (planSegsAddAux v dv ++ missingSegs dv v).map
              (fun kv => (k :: kv.1, kv.2)) else []) := hkv
        clear hkv
        by_cases hd : (isDict v && isDict dv) = true
        · rw [if_pos hd] at hkv2
          simp only [List.mem_map] at hkv2
          obtain ⟨kv2, hmem, heq⟩ := hkv2
          subst heq
          have hgdv : goodT dv = true := goodT_lookup hgds hlk
          have hpart : kv2.1 ≠ [] ∧ ∀ x ∈ kv2.1, goodKey x = true := by
            rcases List.mem_append.mp hmem with h1 | h1
            · obtain ⟨⟨k2, π2, heq2, hne2, _⟩, hgood2⟩ := ihv dv hgv hgdv kv2 h1
              exact ⟨by rw [heq2]; simp, hgood2⟩
            · obtain ⟨⟨k2, heq2, _, _, _⟩, hgood2⟩ :=
                missingSegs_shape dv v hgdv kv2 h1
              exact ⟨by rw [heq2]; simp, hgood2⟩
          refine ⟨⟨k, kv2.1, rfl, hpart.1, by simp [containsKey, lookupKey]⟩, ?_⟩
          intro x hx
          rcases List.mem_cons.mp hx with h1 | h1
          · subst h1; exact hgk
          · exact hpart.2 x h1
        · rw [if_neg hd] at hkv2
          cases hkv2
    · obtain ⟨⟨k2, π2, heq, hne, hc⟩, hgood2⟩ := ihrest ds hgrest hgds kv hkv
      refine ⟨⟨k2, π2, heq, hne, ?_⟩, hgood2⟩
      rw [containsKey_dcons]
      simp [hc]
  | _ => intro ds _ _ kv hkv; simp [planSegsAddAux] at hkv

theorem updOne_not_mem (a : List (List Char × PTree)) (k : List Char) (v : PTree)
    (h : k ∉ a.map Prod.fst) : updOne a k v = a ++ [(k, v)] := by
  induction a with
  | nil => rfl
  | cons kv rest ih =>
    simp only [List.map_cons, List.mem_cons] at h
    push_neg at h
    rw [show updOne (kv :: rest) k v =
        if kv.1 = k then (k, v) :: rest else kv :: updOne rest k v from by
      rcases kv with ⟨k2, v2⟩; rfl]
    rw [if_neg (fun he => h.1 he.symm), ih h.2]
    rfl

theorem updMany_append_split (a b c : List (List Char × PTree)) :
    updMany a (b ++ c) = updMany (updMany a b) c := by
  unfold updMany
  rw [List.foldl_append]

theorem updMany_append_of_fresh (b : List (List Char × PTree)) :
    ∀ a : List (List Char × PTree),
      (∀ kv ∈ b, kv.1 ∉ a.map Prod.fst) → (b.map Prod.fst).Nodup →
      updMany a b = a ++ b := by
  induction b with
  | nil => intro a _ _; simp [updMany]
  | cons kv rest ih =>
    intro a hfresh hnd
    have h1 : updMany a (kv :: rest) = updMany (updOne a kv.1 kv.2) rest := rfl
    rw [h1, updOne_not_mem a kv.1 kv.2 (hfresh kv (List.mem_cons_self _ _))]
    simp only [List.map_cons, List.nodup_cons] at hnd
    rw [ih (a ++ [(kv.1, kv.2)]) ?_ hnd.2]
    · simp
    · intro kv2 hkv2
      simp only [List.map_append, List.mem_append, List.map_cons]
      push_neg
      refine ⟨hfresh kv2 (List.mem_cons_of_mem _ hkv2), ?_⟩
      simp only [List.map_nil, List.mem_singleton]
      intro he
      exact hnd.1 (he ▸ List.mem_map_of_mem Prod.fst hkv2)

theorem updMany_nil_of_nodup (b : List (List Char × PTree))
    (hnd : (b.map Prod.fst).Nodup) : updMany [] b = b := by
  have := updMany_append_of_fresh b [] (by intro kv _; simp) hnd
  simpa using this

theorem ND_missing (ds : PTree) : ∀ s : PTree, goodT ds = true →
    ((missingSegs ds s).map Prod.fst).Nodup := by
  induction ds with
  | dcons k dv rest _ ihrest =>
    intro s hg
    obtain ⟨_, hnc, _, _, hgrest⟩ := goodT_dcons hg
    simp only [missingSegs]
    by_cases hc : containsKey s k = true
    · rw [if_pos hc]
      simpa using ihrest s hgrest
    · rw [if_neg hc]
      simp only [List.singleton_append, List.map_cons, List.nodup_cons]
      refine ⟨?_, ihrest s hgrest⟩
      intro hmem
      simp only [List.mem_map] at hmem
      obtain ⟨kv, hkv, heq⟩ := hmem
      obtain ⟨⟨k2, heq2, hc2, _, _⟩, _⟩ := missingSegs_shape rest s hgrest kv hkv
      rw [heq2] at heq
      injection heq with h3
      rw [h3] at hc2
      rw [hc2] at hnc
      cases hnc
  | _ => intro s _; simp [missingSegs]

/-- Case equations for the spine functions, keyed on the default-side
lookup, for rewriting. -/
theorem planSegsRem_none {ds : PTree} {k : Key} (v rest : PTree)
    (h : lookupKey ds k = none) :
    planSegsRem (.dcons k v rest) ds = [k] :: planSegsRem rest ds := by
  simp [planSegsRem, h]

theorem planSegsRem_some {ds : PTree} {k : Key} {dv : PTree} (v rest : PTree)
    (h : lookupKey ds k = some dv) :
    planSegsRem (.dcons k v rest) ds =
      (if (isDict v && isDict dv) = true then
        (planSegsRem v dv).map (fun π => k :: π) else []) ++
      planSegsRem rest ds := by
  simp [planSegsRem, h]

theorem planSegsAddAux_none {ds : PTree} {k : Key} (v rest : PTree)
    (h : lookupKey ds k = none) :
    planSegsAddAux (.dcons k v rest) ds = planSegsAddAux rest ds := by
  simp [planSegsAddAux, h]

theorem planSegsAddAux_some {ds : PTree} {k : Key} {dv : PTree} (v rest : PTree)
    (h : lookupKey ds k = some dv) :
    planSegsAddAux (.dcons k v rest) ds =
      (if (isDict v && isDict dv) = true then
        (planSegsAddAux v dv ++ missingSegs dv v).map
          (fun kv => (k :: kv.1, kv.2)) else []) ++
      planSegsAddAux rest ds := by
  simp [planSegsAddAux, h]

theorem missingSegs_dcons (k : Key) (dv rest s : PTree) :
    missingSegs (.dcons k dv rest) s =
      (if containsKey s k = true then [] else [([k], dv)]) ++ missingSegs rest s := by
  simp [missingSegs]

theorem planLoop_dcons_none {ds : PTree} {k : Key} (v rest : PTree)
    (p : List Char) (acc : List (List Char) × List (List Char × PTree))
    (h : lookupKey ds k = none) :
    planLoop (.dcons k v rest) ds p acc =
      planLoop rest ds p (acc.1 ++ [joinPath p k], acc.2) := by
  simp [planLoop, h]

theorem planLoop_dcons_some {ds : PTree} {k : Key} {dv : PTree} (v rest : PTree)
    (p : List Char) (acc : List (List Char) × List (List Char × PTree))
    (h : lookupKey ds k = some dv) :
    planLoop (.dcons k v rest) ds p acc =
      planLoop rest ds p
        (if (isDict v && isDict dv) = true then
          (acc.1 ++ (planLoop v dv (joinPath p k) ([], [])).1,
           updMany acc.2
             (updMany (planLoop v dv (joinPath p k) ([], [])).2
               (addMissing dv v (joinPath p k))))
         else acc) := by
  by_cases hd : (isDict v && isDict dv) = true
  · simp [planLoop, h, hd]
  · simp [planLoop, h, hd]

theorem addMissing_dcons (k : Key) (dv rest s : PTree) (p : List Char) :
    addMissing (.dcons k dv rest) s p =
      (if containsKey s k = true then [] else [(joinPath p k, dv)]) ++
        addMissing rest s p := by
  simp [addMissing]

theorem pruneSpine_none {ds : PTree} {k : Key} (v rest : PTree)
    (h : lookupKey ds k = none) :
    pruneSpine (.dcons k v rest) ds = pruneSpine rest ds := by
  simp [pruneSpine, h]

theorem pruneSpine_some {ds : PTree} {k : Key} {dv : PTree} (v rest : PTree)
    (h : lookupKey ds k = some dv) :
    pruneSpine (.dcons k v rest) ds =
      .dcons k (if (isDict v && isDict dv) = true then pruneSpine v dv else v)
        (pruneSpine rest ds) := by
  simp [pruneSpine, h]

theorem keepSpine_none {ds : PTree} {k : Key} (v rest : PTree)
    (h : lookupKey ds k = none) :
    keepSpine (.dcons k v rest) ds = keepSpine rest ds := by
  simp [keepSpine, h]

theorem keepSpine_some {ds : PTree} {k : Key} {dv : PTree} (v rest : PTree)
    (h : lookupKey ds k = some dv) :
    keepSpine (.dcons k v rest) ds =
      .dcons k (if (isDict v && isDict dv) = true then mergeT v dv else v)
        (keepSpine rest ds) := by
  simp [keepSpine, h]

theorem mergeAux_none {ds : PTree} {k : Key} (v rest s : PTree)
    (h : lookupKey ds k = none) :
    mergeAux (.dcons k v rest) s ds = mergeAux rest s ds := by
  simp [mergeAux, h]

theorem mergeAux_some {ds : PTree} {k : Key} {dv : PTree} (v rest s : PTree)
    (h : lookupKey ds k = some dv) :
    mergeAux (.dcons k v rest) s ds =
      .dcons k (if (isDict v && isDict dv) = true then mergeAux v v dv else v)
        (mergeAux rest s ds) := by
  simp [mergeAux, h]

theorem addMissingT_dcons (k : Key) (dv rest s : PTree) :
    addMissingT (.dcons k dv rest) s =
      if containsKey s k = true then addMissingT rest s
      else .dcons k dv (addMissingT rest s) := by
  simp [addMissingT]

theorem ND_aux (s : PTree) : ∀ ds : PTree, goodT s = true → goodT ds = true →
    ((planSegsAddAux s ds).map Prod.fst).Nodup := by
  induction s with
  | dcons k v rest ihv ihrest =>
    intro ds hg hgds
    obtain ⟨hgk, hnc, _, hgv, hgrest⟩ := goodT_dcons hg
    rcases hlk : lookupKey ds k with _ | dv
    · rw [planSegsAddAux_none v rest hlk]
      exact ihrest ds hgrest hgds
    · rw [planSegsAddAux_some v rest hlk, List.map_append, List.nodup_append]
      have hgdv : goodT dv = true := goodT_lookup hgds hlk
      refine ⟨?_, ihrest ds hgrest hgds, ?_⟩
      · by_cases hd : (isDict v && isDict dv) = true
        · rw [if_pos hd, List.map_map]
          have hcomp : (Prod.fst ∘ fun kv : List Key × PTree => (k :: kv.1, kv.2)) =
              (fun π => k :: π) ∘ Prod.fst := rfl
          rw [hcomp, ← List.map_map]
          have hinner : ((planSegsAddAux v dv ++ missingSegs dv v).map Prod.fst).Nodup := by
            rw [List.map_append, List.nodup_append]
            refine ⟨ihv dv hgv hgdv, ND_missing dv v hgdv, ?_⟩
            intro π hπ1 hπ2
            simp only [List.mem_map] at hπ1 hπ2
            obtain ⟨kv1, hkv1, heq1⟩ := hπ1
            obtain ⟨kv2, hkv2, heq2⟩ := hπ2
            obtain ⟨⟨k1, π1, he1, hne1, _⟩, _⟩ := auxSegs_shape v dv hgv hgdv kv1 hkv1
            obtain ⟨⟨k2, he2, _, _, _⟩, _⟩ := missingSegs_shape dv v hgdv kv2 hkv2
            rw [← heq1, he1] at heq2
            rw [he2] at heq2
            injection heq2 with h3 h4
            exact hne1 h4.symm
          exact hinner.map (fun a b hab => by injection hab)
        · rw [if_neg hd]
          simp
      · intro π hπ1 hπ2
        simp only [List.mem_map] at hπ1 hπ2
        obtain ⟨kv1, hkv1, heq1⟩ := hπ1
        obtain ⟨kv2, hkv2, heq2⟩ := hπ2
        obtain ⟨⟨k2, π2, he2, _, hc2⟩, _⟩ := auxSegs_shape rest ds hgrest hgds kv2 hkv2
        by_cases hd : (isDict v && isDict dv) = true
        · rw [if_pos hd] at hkv1
          simp only [List.mem_map] at hkv1
          obtain ⟨kv3, _, heq3⟩ := hkv1
          rw [← heq1, ← heq3] at heq2
          rw [he2] at heq2
          injection heq2 with h3 h4
          rw [h3] at hc2
          rw [hc2] at hnc
          cases hnc
        · rw [if_neg hd] at hkv1
          cases hkv1
  | _ => intro ds _ _; simp [planSegsAddAux]

theorem ND_add (s ds : PTree) (hg : goodT s = true) (hgds : goodT ds = true) :
    ((planSegsAdd s ds).map Prod.fst).Nodup := by
  unfold planSegsAdd
  rw [List.map_append, List.nodup_append]
  refine ⟨ND_aux s ds hg hgds, ND_missing ds s hgds, ?_⟩
  intro π hπ1 hπ2
  simp only [List.mem_map] at hπ1 hπ2
  obtain ⟨kv1, hkv1, heq1⟩ := hπ1
  obtain ⟨kv2, hkv2, heq2⟩ := hπ2
  obtain ⟨⟨k1, π1, he1, hne1, _⟩, _⟩ := auxSegs_shape s ds hg hgds kv1 hkv1
  obtain ⟨⟨k2, he2, _, _, _⟩, _⟩ := missingSegs_shape ds s hgds kv2 hkv2
  rw [← heq1, he1] at heq2
  rw [he2] at heq2
  injection heq2 with h3 h4
  exact hne1 h4.symm

theorem encFrom_inj (p : List Char) {a b : List Key}
    (hna : a ≠ []) (hnb : b ≠ [])
    (hga : ∀ k ∈ a, goodKey k = true) (hgb : ∀ k ∈ b, goodKey k = true)
    (h : encFrom p a = encFrom p b) : a = b := by
  have h1 := splitDot_encFrom a p hna hga
  have h2 := splitDot_encFrom b p hnb hgb
  rw [h] at h1
  rw [h1] at h2
  exact List.append_cancel_left h2

theorem ND_enc_of (p : List Char) (base : List (List Key × PTree))
    (hshape : ∀ kv ∈ base, kv.1 ≠ [] ∧ ∀ x ∈ kv.1, goodKey x = true)
    (hnd : (base.map Prod.fst).Nodup) :
    ((base.map (fun kv => (encFrom p kv.1, kv.2))).map Prod.fst).Nodup := by
  rw [List.map_map]
  have hcomp : (Prod.fst ∘ fun kv : List Key × PTree => (encFrom p kv.1, kv.2)) =
      (encFrom p) ∘ Prod.fst := rfl
  rw [hcomp, ← List.map_map]
  refine List.Nodup.map_on ?_ hnd
  intro x hx y hy hxy
  simp only [List.mem_map] at hx hy
  obtain ⟨kv1, hkv1, he1⟩ := hx
  obtain ⟨kv2, hkv2, he2⟩ := hy
  obtain ⟨hn1, hg1⟩ := hshape kv1 hkv1
  obtain ⟨hn2, hg2⟩ := hshape kv2 hkv2
  subst he1
  subst he2
  exact encFrom_inj p hn1 hn2 hg1 hg2 hxy

/-- `addMissing` is the dotted encoding of `missingSegs`. -/
theorem addMissing_eq_missingSegs (ds : PTree) : ∀ (s : PTree) (p : List Char),
    addMissing ds s p =
      (missingSegs ds s).map (fun kv => (encFrom p kv.1, kv.2)) := by
  induction ds with
  | dcons k dv rest _ ihrest =>
    intro s p
    rw [addMissing_dcons, missingSegs_dcons, List.map_append, ihrest s p]
    by_cases hc : containsKey s k = true
    · rw [if_pos hc, if_pos hc]
      rfl
    · rw [if_neg hc, if_neg hc]
      rfl
  | _ => intro s p; simp [addMissing, missingSegs]

/-- Collapsing the nested-additions update followed by the missing-key
update into plain concatenation: the encoded nested paths have at least two
segments, the encoded missing paths exactly one, so the keys are fresh. -/
theorem updMany_enc_append (p : List Char) (a b : List (List Key × PTree))
    (ha : ∀ kv ∈ a, (∃ k π2, kv.1 = k :: π2 ∧ π2 ≠ []) ∧
      ∀ x ∈ kv.1, goodKey x = true)
    (hb : ∀ kv ∈ b, (∃ k, kv.1 = [k]) ∧ ∀ x ∈ kv.1, goodKey x = true)
    (hndb : (b.map Prod.fst).Nodup) :
    updMany (a.map (fun kv => (encFrom p kv.1, kv.2)))
        (b.map (fun kv => (encFrom p kv.1, kv.2))) =
      (a ++ b).map (fun kv => (encFrom p kv.1, kv.2)) := by
  rw [List.map_append]
  refine updMany_append_of_fresh _ _ ?_ ?_
  · intro kv hkv
    simp only [List.mem_map] at hkv
    obtain ⟨kv2, hkv2, he2⟩ := hkv
    intro hmem
    simp only [List.map_map, List.mem_map, Function.comp] at hmem
    obtain ⟨kv1, hkv1, he1⟩ := hmem
    obtain ⟨⟨k1, π1, hsh1, hne1⟩, hg1⟩ := ha kv1 hkv1
    obtain ⟨⟨k2, hsh2⟩, hg2⟩ := hb kv2 hkv2
    rw [← he2] at he1
    have heq : kv1.1 = kv2.1 := by
      refine encFrom_inj p ?_ ?_ hg1 hg2 ?_
      · rw [hsh1]; simp
      · rw [hsh2]; simp
      · exact he1
    rw [hsh1, hsh2] at heq
    injection heq with h3 h4
    exact hne1 h4
  · refine ND_enc_of p b ?_ hndb
    intro kv hkv
    obtain ⟨⟨k2, hsh2⟩, hg2⟩ := hb kv hkv
    exact ⟨by rw [hsh2]; simp, hg2⟩

/-- The dotted-path plan accumulated by `planLoop` is exactly the encoding
of the segment-level plan, for trees with sane keys. -/
theorem planLoop_corr (s : PTree) : ∀ (ds : PTree) (p : List Char)
    (acc : List (List Char) × List (List Char × PTree)),
    goodT s = true → goodT ds = true →
    planLoop s ds p acc =
      (acc.1 ++ (planSegsRem s ds).map (encFrom p),
       updMany acc.2
         ((planSegsAddAux s ds).map (fun kv => (encFrom p kv.1, kv.2)))) := by
  induction s with
  | dcons k v rest ihv ihrest =>
    intro ds p acc hg hgds
    obtain ⟨hgk, hnc, _, hgv, hgrest⟩ := goodT_dcons hg
    rcases hlk : lookupKey ds k with _ | dv
    · rw [planLoop_dcons_none v rest p acc hlk,
        ihrest ds p _ hgrest hgds,
        planSegsRem_none v rest hlk,
        planSegsAddAux_none v rest hlk]
      simp [encFrom]
    · have hgdv : goodT dv = true := goodT_lookup hgds hlk
      rw [planLoop_dcons_some v rest p acc hlk,
        planSegsRem_some v rest hlk,
        planSegsAddAux_some v rest hlk]
      by_cases hd : (isDict v && isDict dv) = true
      · rw [if_pos hd, if_pos hd, if_pos hd]
        have hsub := ihv dv (joinPath p k) ([], []) hgv hgdv
        have hauxnd : ((planSegsAddAux v dv).map
            (fun kv => (encFrom (joinPath p k) kv.1, kv.2))).foldl
              (fun acc kv => updOne acc kv.1 kv.2) [] =
            (planSegsAddAux v dv).map
              (fun kv => (encFrom (joinPath p k) kv.1, kv.2)) := by
          show updMany [] _ = _
          refine updMany_nil_of_nodup _ ?_
          refine ND_enc_of (joinPath p k) (planSegsAddAux v dv) ?_
            (ND_aux v dv hgv hgdv)
          intro kv hkv
          obtain ⟨⟨k2, π2, he2, _, _⟩, hg2⟩ := auxSegs_shape v dv hgv hgdv kv hkv
          exact ⟨by rw [he2]; simp, hg2⟩
        have hsub2 : planLoop v dv (joinPath p k) ([], []) =
            ((planSegsRem v dv).map (encFrom (joinPath p k)),
             (planSegsAddAux v dv).map
               (fun kv => (encFrom (joinPath p k) kv.1, kv.2))) := by
          rw [hsub]
          simp only [List.nil_append]
          rw [show updMany [] ((planSegsAddAux v dv).map
              (fun kv => (encFrom (joinPath p k) kv.1, kv.2))) =
            (planSegsAddAux v dv).map
              (fun kv => (encFrom (joinPath p k) kv.1, kv.2)) from hauxnd]
        rw [hsub2]
        have hmiss : addMissing dv v (joinPath p k) =
            (missingSegs dv v).map
              (fun kv => (encFrom (joinPath p k) kv.1, kv.2)) :=
          addMissing_eq_missingSegs dv v (joinPath p k)
        have hcollapse : updMany
            ((planSegsAddAux v dv).map
              (fun kv => (encFrom (joinPath p k) kv.1, kv.2)))
            (addMissing dv v (joinPath p k)) =
            ((planSegsAddAux v dv ++ missingSegs dv v).map
              (fun kv => (encFrom (joinPath p k) kv.1, kv.2))) := by
          rw [hmiss]
          refine updMany_enc_append (joinPath p k) _ _ ?_ ?_ (ND_missing dv v hgdv)
          · intro kv hkv
            obtain ⟨⟨k2, π2, he2, hne2, _⟩, hg2⟩ := auxSegs_shape v dv hgv hgdv kv hkv
            exact ⟨⟨k2, π2, he2, hne2⟩, hg2⟩
          · intro kv hkv
            obtain ⟨⟨k2, he2, _, _, _⟩, hg2⟩ := missingSegs_shape dv v hgdv kv hkv
            exact ⟨⟨k2, he2⟩, hg2⟩
        rw [ihrest ds p _ hgrest hgds]
        simp only [hcollapse]
        refine Prod.ext ?_ ?_
        · show (acc.1 ++ (planSegsRem v dv).map (encFrom (joinPath p k))) ++
              (planSegsRem rest ds).map (encFrom p) =
            acc.1 ++ ((planSegsRem v dv).map (fun π => k :: π) ++
              planSegsRem rest ds).map (encFrom p)
          rw [List.map_append, List.map_map]
          have hcomp : encFrom p ∘ (fun π => k :: π) = encFrom (joinPath p k) :=
            funext (fun π => rfl)
          rw [hcomp, List.append_assoc]
        · show updMany (updMany acc.2
              ((planSegsAddAux v dv ++ missingSegs dv v).map
                (fun kv => (encFrom (joinPath p k) kv.1, kv.2))))
              ((planSegsAddAux rest ds).map (fun kv => (encFrom p kv.1, kv.2))) =
            updMany acc.2
              (((planSegsAddAux v dv ++ missingSegs dv v).map
                  (fun kv => (k :: kv.1, kv.2)) ++
                planSegsAddAux rest ds).map (fun kv => (encFrom p kv.1, kv.2)))
          have hcomp2 : ((fun kv : List Key × PTree => (encFrom p kv.1, kv.2)) ∘
              (fun kv : List Key × PTree => (k :: kv.1, kv.2))) =
              (fun kv : List Key × PTree => (encFrom (joinPath p k) kv.1, kv.2)) :=
            funext (fun kv => rfl)
          rw [← updMany_append_split]
          congr 1
          conv_rhs => rw [List.map_append, List.map_map, hcomp2]
      · rw [if_neg hd, if_neg hd, if_neg hd]
        rw [ihrest ds p acc hgrest hgds]
        simp
  | _ =>
    intro ds p acc _ _
    simp [planLoop, planSegsRem, planSegsAddAux, updMany]

/-- The full dotted-path reconciliation plan is the encoding of the
segment-level plan. -/
theorem sanitize_plan_corr (s ds : PTree) (p : List Char)
    (hg : goodT s = true) (hgds : goodT ds = true) :
    sanitize_plan s ds p =
      ((planSegsRem s ds).map (encFrom p),
       (planSegsAdd s ds).map (fun kv => (encFrom p kv.1, kv.2))) := by
  show ((planLoop s ds p ([], [])).1,
      updMany (planLoop s ds p ([], [])).2 (addMissing ds s p)) = _
  rw [planLoop_corr s ds p ([], []) hg hgds]
  simp only [List.nil_append]
  refine Prod.ext rfl ?_
  show updMany (updMany []
      ((planSegsAddAux s ds).map (fun kv => (encFrom p kv.1, kv.2))))
      (addMissing ds s p) =
    (planSegsAdd s ds).map (fun kv => (encFrom p kv.1, kv.2))
  rw [updMany_nil_of_nodup _ (ND_enc_of p _ ?_ (ND_aux s ds hg hgds)),
    addMissing_eq_missingSegs ds s p,
    updMany_enc_append p _ _ ?_ ?_ (ND_missing ds s hgds)]
  · rfl
  · intro kv hkv
    obtain ⟨⟨k2, π2, he2, hne2, _⟩, hg2⟩ := auxSegs_shape s ds hg hgds kv hkv
    exact ⟨⟨k2, π2, he2, hne2⟩, hg2⟩
  · intro kv hkv
    obtain ⟨⟨k2, he2, _, _, _⟩, hg2⟩ := missingSegs_shape ds s hgds kv hkv
    exact ⟨⟨k2, he2⟩, hg2⟩
  · intro kv hkv
    obtain ⟨⟨k2, π2, he2, _, _⟩, hg2⟩ := auxSegs_shape s ds hg hgds kv hkv
    exact ⟨by rw [he2]; simp, hg2⟩

theorem removeSegs_descend (k : Key) (v rest : PTree) {π : List Key}
    (hne : π ≠ []) :
    removeSegs (.dcons k v rest) (k :: π) =
      (removeSegs v π).map (fun x => .dcons k x rest) := by
  rcases π with _ | ⟨p, π2⟩
  · exact absurd rfl hne
  · show (match lookupKey (.dcons k v rest) k with
      | some sub => (removeSegs sub (p :: π2)).map (setKey (.dcons k v rest) k)
      | none => none) = _
    rw [show lookupKey (.dcons k v rest) k = some v from by simp [lookupKey]]
    show (removeSegs v (p :: π2)).map (setKey (.dcons k v rest) k) = _
    rw [show (setKey (.dcons k v rest) k) = (fun x => PTree.dcons k x rest) from
      funext (fun x => by simp [setKey])]

theorem removeSegs_skip (k : Key) (v rest : PTree) {k2 : Key} (π : List Key)
    (hne : k ≠ k2) :
    removeSegs (.dcons k v rest) (k2 :: π) =
      (removeSegs rest (k2 :: π)).map (fun x => .dcons k v x) := by
  rcases π with _ | ⟨p, π2⟩
  · show (if containsKey (.dcons k v rest) k2 = true then
        some (delKey (.dcons k v rest) k2) else none) = _
    rw [show removeSegs rest [k2] =
        if containsKey rest k2 = true then some (delKey rest k2) else none from rfl,
      containsKey_dcons,
      show (decide (k = k2) || containsKey rest k2) = containsKey rest k2 from by
        simp [hne]]
    by_cases hc : containsKey rest k2 = true
    · rw [if_pos hc, if_pos hc]
      show some (delKey (.dcons k v rest) k2) = some (.dcons k v (delKey rest k2))
      rw [show delKey (.dcons k v rest) k2 = .dcons k v (delKey rest k2) from by
        simp [delKey, hne]]
    · rw [if_neg hc, if_neg hc]
      rfl
  · show (match lookupKey (.dcons k v rest) k2 with
      | some sub => (removeSegs sub (p :: π2)).map (setKey (.dcons k v rest) k2)
      | none => none) = _
    rw [show lookupKey (.dcons k v rest) k2 = lookupKey rest k2 from by
        simp [lookupKey, hne],
      show removeSegs rest (k2 :: p :: π2) =
        (match lookupKey rest k2 with
         | some sub => (removeSegs sub (p :: π2)).map (setKey rest k2)
         | none => none) from rfl]
    rcases hlk : lookupKey rest k2 with _ | sub
    · rfl
    · show (removeSegs sub (p :: π2)).map (setKey (.dcons k v rest) k2) =
        ((removeSegs sub (p :: π2)).map (setKey rest k2)).map
          (fun x => PTree.dcons k v x)
      rw [Option.map_map,
        show ((fun x => PTree.dcons k v x) ∘ setKey rest k2) =
          setKey (.dcons k v rest) k2 from
            funext (fun x => by simp [setKey, hne])]

theorem addSegs_descend (k : Key) (v rest : PTree) {π : List Key} (w : PTree)
    (hne : π ≠ []) :
    addSegs (.dcons k v rest) (k :: π) w =
      (addSegs v π w).map (fun x => .dcons k x rest) := by
  rcases π with _ | ⟨p, π2⟩
  · exact absurd rfl hne
  · show (match lookupKey (.dcons k v rest) k with
      | some sub => (addSegs sub (p :: π2) w).map (setKey (.dcons k v rest) k)
      | none => none) = _
    rw [show lookupKey (.dcons k v rest) k = some v from by simp [lookupKey]]
    show (addSegs v (p :: π2) w).map (setKey (.dcons k v rest) k) = _
    rw [show (setKey (.dcons k v rest) k) = (fun x => PTree.dcons k x rest) from
      funext (fun x => by simp [setKey])]

theorem addSegs_skip2 (k : Key) (v rest : PTree) {k2 : Key} {π : List Key}
    (w : PTree) (hπ : π ≠ []) (hne : k ≠ k2) :
    addSegs (.dcons k v rest) (k2 :: π) w =
      (addSegs rest (k2 :: π) w).map (fun x => .dcons k v x) := by
  rcases π with _ | ⟨p, π2⟩
  · exact absurd rfl hπ
  · show (match lookupKey (.dcons k v rest) k2 with
      | some sub => (addSegs sub (p :: π2) w).map (setKey (.dcons k v rest) k2)
      | none => none) = _
    rw [show lookupKey (.dcons k v rest) k2 = lookupKey rest k2 from by
        simp [lookupKey, hne],
      show addSegs rest (k2 :: p :: π2) w =
        (match lookupKey rest k2 with
         | some sub => (addSegs sub (p :: π2) w).map (setKey rest k2)
         | none => none) from rfl]
    rcases hlk : lookupKey rest k2 with _ | sub
    · rfl
    · show (addSegs sub (p :: π2) w).map (setKey (.dcons k v rest) k2) =
        ((addSegs sub (p :: π2) w).map (setKey rest k2)).map
          (fun x => PTree.dcons k v x)
      rw [Option.map_map,
        show ((fun x => PTree.dcons k v x) ∘ setKey rest k2) =
          setKey (.dcons k v rest) k2 from
            funext (fun x => by simp [setKey, hne])]

theorem applyRemsSeg_append (L1 L2 : List (List Key)) :
    ∀ s : PTree, applyRemsSeg s (L1 ++ L2) =
      (applyRemsSeg s L1).bind (fun s2 => applyRemsSeg s2 L2) := by
  induction L1 with
  | nil => intro s; rfl
  | cons π L ih =>
    intro s
    show (match removeSegs s π with
      | some s2 => applyRemsSeg s2 (L ++ L2)
      | none => none) =
      ((match removeSegs s π with
        | some s2 => applyRemsSeg s2 L
        | none => none) : Option PTree).bind (fun s2 => applyRemsSeg s2 L2)
    rcases h : removeSegs s π with _ | x
    · rfl
    · exact ih x

theorem applyAddsSeg_append (L1 L2 : List (List Key × PTree)) :
    ∀ s : PTree, applyAddsSeg s (L1 ++ L2) =
      (applyAddsSeg s L1).bind (fun s2 => applyAddsSeg s2 L2) := by
  induction L1 with
  | nil => intro s; rfl
  | cons kv L ih =>
    intro s
    show (match addSegs s kv.1 kv.2 with
      | some s2 => applyAddsSeg s2 (L ++ L2)
      | none => none) =
      ((match addSegs s kv.1 kv.2 with
        | some s2 => applyAddsSeg s2 L
        | none => none) : Option PTree).bind (fun s2 => applyAddsSeg s2 L2)
    rcases h : addSegs s kv.1 kv.2 with _ | x
    · rfl
    · exact ih x

theorem applyRemsSeg_descend_group (k : Key) (rest : PTree)
    (L : List (List Key)) : ∀ v : PTree, (∀ π ∈ L, π ≠ []) →
    applyRemsSeg (.dcons k v rest) (L.map (fun π => k :: π)) =
      (applyRemsSeg v L).map (fun x => PTree.dcons k x rest) := by
  induction L with
  | nil => intro v _; rfl
  | cons π L ih =>
    intro v hne
    rw [List.map_cons,
      show applyRemsSeg (.dcons k v rest)
          ((k :: π) :: L.map (fun π => k :: π)) =
        (match removeSegs (.dcons k v rest) (k :: π) with
         | some s2 => applyRemsSeg s2 (L.map (fun π => k :: π))
         | none => none) from rfl,
      removeSegs_descend k v rest (hne π (by simp)),
      show applyRemsSeg v (π :: L) =
        (match removeSegs v π with
         | some s2 => applyRemsSeg s2 L
         | none => none) from rfl]
    rcases h2 : removeSegs v π with _ | x
    · rfl
    · show applyRemsSeg (.dcons k x rest) (L.map (fun π => k :: π)) =
        (applyRemsSeg x L).map (fun t => PTree.dcons k t rest)
      exact ih x (fun π2 h => hne π2 (List.mem_cons_of_mem _ h))

theorem applyRemsSeg_skip_group (k : Key) (v : PTree)
    (L : List (List Key)) : ∀ rest : PTree,
    (∀ π ∈ L, ∃ p π2, π = p :: π2 ∧ k ≠ p) →
    applyRemsSeg (.dcons k v rest) L =
      (applyRemsSeg rest L).map (fun x => PTree.dcons k v x) := by
  induction L with
  | nil => intro rest _; rfl
  | cons π L ih =>
    intro rest hne
    obtain ⟨p, π2, hπ, hkp⟩ := hne π (by simp)
    subst hπ
    rw [show applyRemsSeg (.dcons k v rest) ((p :: π2) :: L) =
        (match removeSegs (.dcons k v rest) (p :: π2) with
         | some s2 => applyRemsSeg s2 L
         | none => none) from rfl,
      removeSegs_skip k v rest π2 hkp,
      show applyRemsSeg rest ((p :: π2) :: L) =
        (match removeSegs rest (p :: π2) with
         | some s2 => applyRemsSeg s2 L
         | none => none) from rfl]
    rcases h2 : removeSegs rest (p :: π2) with _ | x
    · rfl
    · show applyRemsSeg (.dcons k v x) L =
        (applyRemsSeg x L).map (fun t => PTree.dcons k v t)
      exact ih x (fun π3 h => hne π3 (List.mem_cons_of_mem _ h))

theorem applyAddsSeg_descend_group (k : Key) (rest : PTree)
    (L : List (List Key × PTree)) : ∀ v : PTree, (∀ kv ∈ L, kv.1 ≠ []) →
    applyAddsSeg (.dcons k v rest) (L.map (fun kv => (k :: kv.1, kv.2))) =
      (applyAddsSeg v L).map (fun x => PTree.dcons k x rest) := by
  induction L with
  | nil => intro v _; rfl
  | cons kv L ih =>
    intro v hne
    rw [List.map_cons,
      show applyAddsSeg (.dcons k v rest)
          ((k :: kv.1, kv.2) :: L.map (fun kv => (k :: kv.1, kv.2))) =
        (match addSegs (.dcons k v rest) (k :: kv.1) kv.2 with
         | some s2 => applyAddsSeg s2 (L.map (fun kv => (k :: kv.1, kv.2)))
         | none => none) from rfl,
      addSegs_descend k v rest kv.2 (hne kv (by simp)),
      show applyAddsSeg v (kv :: L) =
        (match addSegs v kv.1 kv.2 with
         | some s2 => applyAddsSeg s2 L
         | none => none) from rfl]
    rcases h2 : addSegs v kv.1 kv.2 with _ | x
    · rfl
    · show applyAddsSeg (.dcons k x rest) (L.map (fun kv => (k :: kv.1, kv.2))) =
        (applyAddsSeg x L).map (fun t => PTree.dcons k t rest)
      exact ih x (fun kv2 h => hne kv2 (List.mem_cons_of_mem _ h))

theorem applyAddsSeg_skip_group (k : Key) (v : PTree)
    (L : List (List Key × PTree)) : ∀ rest : PTree,
    (∀ kv ∈ L, ∃ p π2, kv.1 = p :: π2 ∧ π2 ≠ [] ∧ k ≠ p) →
    applyAddsSeg (.dcons k v rest) L =
      (applyAddsSeg rest L).map (fun x => PTree.dcons k v x) := by
  induction L with
  | nil => intro rest _; rfl
  | cons kv L ih =>
    intro rest hne
    obtain ⟨p, π2, hπ, hπ2, hkp⟩ := hne kv (by simp)
    rw [show applyAddsSeg (.dcons k v rest) (kv :: L) =
        (match addSegs (.dcons k v rest) kv.1 kv.2 with
         | some s2 => applyAddsSeg s2 L
         | none => none) from rfl,
      hπ, addSegs_skip2 k v rest kv.2 hπ2 hkp,
      show applyAddsSeg rest (kv :: L) =
        (match addSegs rest kv.1 kv.2 with
         | some s2 => applyAddsSeg s2 L
         | none => none) from rfl,
      hπ]
    rcases h2 : addSegs rest (p :: π2) kv.2 with _ | x
    · rfl
    · show applyAddsSeg (.dcons k v x) L =
        (applyAddsSeg x L).map (fun t => PTree.dcons k v t)
      exact ih x (fun kv2 h => hne kv2 (List.mem_cons_of_mem _ h))

/-- The spine shape of a Python dict: a chain of bindings ending in the
empty dict.  Every value `isinstance(x, dict)` has this shape.  It is
preserved by every dict operation and is all that the apply-phase proofs
need of intermediate trees. -/
def isSpine : PTree → Bool
  | .dnil => true
  | .dcons _ _ rest => isSpine rest
  | _ => false

theorem isSpine_isDict {t : PTree} (h : isSpine t = true) : isDict t = true := by
  cases t with
  | dnil => rfl
  | dcons k v rest => rfl
  | leaf x => exact absurd h (by simp [isSpine])

theorem goodT_isSpine {t : PTree} (hg : goodT t = true) (hd : isDict t = true) :
    isSpine t = true := by
  induction t with
  | dnil => rfl
  | leaf x => exact absurd hd (by simp [isDict])
  | dcons k v rest _ ihrest =>
    obtain ⟨_, _, hdrest, _, hgrest⟩ := goodT_dcons hg
    show isSpine rest = true
    exact ihrest hgrest hdrest

theorem dappend_assoc (t u w : PTree) :
    dappend (dappend t u) w = dappend t (dappend u w) := by
  induction t with
  | dcons k v rest _ ihrest => simp [dappend, ihrest]
  | dnil => rfl
  | leaf x => rfl

theorem dappend_dnil {t : PTree} (h : isSpine t = true) :
    dappend t .dnil = t := by
  induction t with
  | dcons k v rest _ ihrest =>
    rw [dappend, ihrest h]
  | dnil => rfl
  | leaf x => exact absurd h (by simp [isSpine])

theorem isSpine_dappend {t u : PTree} (ht : isSpine t = true)
    (hu : isSpine u = true) : isSpine (dappend t u) = true := by
  induction t with
  | dcons k v rest _ ihrest =>
    rw [dappend]
    exact ihrest ht
  | dnil => exact hu
  | leaf x => exact hu

theorem isSpine_setKey {t : PTree} (k : Key) (w : PTree)
    (ht : isSpine t = true) : isSpine (setKey t k w) = true := by
  induction t with
  | dcons k2 v rest _ ihrest =>
    by_cases hk : k2 = k
    · rw [setKey, if_pos hk]
      exact ht
    · rw [setKey, if_neg hk]
      exact ihrest ht
  | dnil => rfl
  | leaf x => exact absurd ht (by simp [isSpine])

theorem containsKey_dappend (t u : PTree) (k : Key) :
    containsKey (dappend t u) k = (containsKey t k || containsKey u k) := by
  induction t with
  | dcons k2 v rest _ ihrest =>
    rw [dappend, containsKey_dcons, containsKey_dcons, ihrest, Bool.or_assoc]
  | dnil => simp [dappend, containsKey, lookupKey]
  | leaf x => simp [dappend, containsKey, lookupKey]

theorem setKey_append_of_not_mem {t : PTree} (k : Key) (w : PTree)
    (h : containsKey t k = false) :
    setKey t k w = dappend t (.dcons k w .dnil) := by
  induction t with
  | dcons k2 v rest _ ihrest =>
    rw [containsKey_dcons, Bool.or_eq_false_iff] at h
    have hk : k2 ≠ k := by
      intro he
      rw [he] at h
      simp at h
    rw [setKey, if_neg hk, dappend, ihrest h.2]
  | dnil => rfl
  | leaf x => rfl

theorem removeSegs_self (k : Key) (v rest : PTree) :
    removeSegs (.dcons k v rest) [k] = some rest := by
  simp [removeSegs, containsKey, lookupKey, delKey]

theorem containsKey_keepSpine_sub {t : PTree} (ds : PTree) (k : Key)
    (h : containsKey (keepSpine t ds) k = true) : containsKey t k = true := by
  induction t with
  | dcons k2 v rest _ ihrest =>
    rcases hlk : lookupKey ds k2 with _ | dv
    · rw [keepSpine_none v rest hlk] at h
      rw [containsKey_dcons, ihrest h, Bool.or_true]
    · rw [keepSpine_some v rest hlk, containsKey_dcons] at h
      rw [containsKey_dcons]
      rcases Bool.or_eq_true_iff.mp h with h2 | h2
      · rw [h2, Bool.true_or]
      · rw [ihrest h2, Bool.or_true]
  | dnil => exact h
  | leaf x => exact h

theorem isSpine_pruneSpine {t : PTree} (ds : PTree) (h : isSpine t = true) :
    isSpine (pruneSpine t ds) = true := by
  induction t with
  | dcons k v rest _ ihrest =>
    rcases hlk : lookupKey ds k with _ | dv
    · rw [pruneSpine_none v rest hlk]
      exact ihrest h
    · rw [pruneSpine_some v rest hlk]
      show isSpine (pruneSpine rest ds) = true
      exact ihrest h
  | dnil => exact h
  | leaf x => exact absurd h (by simp [isSpine])

theorem isSpine_keepSpine {t : PTree} (ds : PTree) (h : isSpine t = true) :
    isSpine (keepSpine t ds) = true := by
  induction t with
  | dcons k v rest _ ihrest =>
    rcases hlk : lookupKey ds k with _ | dv
    · rw [keepSpine_none v rest hlk]
      exact ihrest h
    · rw [keepSpine_some v rest hlk]
      show isSpine (keepSpine rest ds) = true
      exact ihrest h
  | dnil => exact h
  | leaf x => exact absurd h (by simp [isSpine])

/-- The recursive merge splits as the kept spine followed by the missing
defaults. -/
theorem mergeAux_split (sp : PTree) : ∀ s ds : PTree,
    mergeAux sp s ds = dappend (keepSpine sp ds) (addMissingT ds s) := by
  induction sp with
  | dcons k v rest _ ihrest =>
    intro s ds
    rcases hlk : lookupKey ds k with _ | dv
    · rw [mergeAux_none v rest s hlk, keepSpine_none v rest hlk, ihrest]
    · rw [mergeAux_some v rest s hlk, keepSpine_some v rest hlk, dappend, ihrest]
      rfl
  | dnil => intro s ds; rfl
  | leaf x => intro s ds; rfl

/-- The removal phase of the plan, applied at segment level, prunes exactly
the alien keys along both-dict spines. -/
theorem applyRemsSeg_prune (s : PTree) : ∀ ds : PTree, goodT s = true →
    applyRemsSeg s (planSegsRem s ds) = some (pruneSpine s ds) := by
  induction s with
  | dnil => intro ds _; rfl
  | leaf x => intro ds _; rfl
  | dcons k v rest ihv ihrest =>
    intro ds hg
    obtain ⟨hgk, hnc, hdrest, hgv, hgrest⟩ := goodT_dcons hg
    have hskip : ∀ π ∈ planSegsRem rest ds, ∃ p π2, π = p :: π2 ∧ k ≠ p := by
      intro π hπ
      obtain ⟨⟨p, π2, he, hck⟩, _⟩ := remSegs_shape rest ds hgrest π hπ
      exact ⟨p, π2, he, fun hkp => by
        rw [← hkp, hnc] at hck
        exact Bool.false_ne_true hck⟩
    rcases hlk : lookupKey ds k with _ | dv
    · rw [planSegsRem_none v rest hlk, pruneSpine_none v rest hlk,
        show ([k] :: planSegsRem rest ds) = [[k]] ++ planSegsRem rest ds from rfl,
        applyRemsSeg_append,
        show applyRemsSeg (.dcons k v rest) [[k]] = some rest from by
          show (match removeSegs (.dcons k v rest) [k] with
            | some s2 => applyRemsSeg s2 []
            | none => none) = some rest
          rw [removeSegs_self]
          rfl]
      show applyRemsSeg rest (planSegsRem rest ds) = some (pruneSpine rest ds)
      exact ihrest ds hgrest
    · rw [planSegsRem_some v rest hlk, pruneSpine_some v rest hlk,
        applyRemsSeg_append]
      by_cases hbd : (isDict v && isDict dv) = true
      · rw [if_pos hbd, if_pos hbd]
        have hdesc : ∀ π ∈ planSegsRem v dv, π ≠ [] := by
          intro π hπ
          obtain ⟨⟨p, π2, he, _⟩, _⟩ := remSegs_shape v dv hgv π hπ
          rw [he]
          simp
        rw [applyRemsSeg_descend_group k rest _ v hdesc, ihv dv hgv]
        show applyRemsSeg (.dcons k (pruneSpine v dv) rest)
          (planSegsRem rest ds) = _
        rw [applyRemsSeg_skip_group k (pruneSpine v dv) _ rest hskip,
          ihrest ds hgrest]
        rfl
      · rw [if_neg hbd, if_neg hbd]
        show applyRemsSeg (.dcons k v rest) (planSegsRem rest ds) = _
        rw [applyRemsSeg_skip_group k v _ rest hskip, ihrest ds hgrest]
        rfl

/-- Applying the missing-key additions of one level appends the defaults'
missing bindings, provided those keys are genuinely absent from the target
spine. -/
theorem applyAddsSeg_missing (ds : PTree) : ∀ (s t : PTree),
    isSpine t = true → goodT ds = true →
    (∀ k2, containsKey ds k2 = true → containsKey s k2 = false →
      containsKey t k2 = false) →
    applyAddsSeg t (missingSegs ds s) = some (dappend t (addMissingT ds s)) := by
  induction ds with
  | dnil =>
    intro s t hsp _ _
    show some t = some (dappend t .dnil)
    rw [dappend_dnil hsp]
  | leaf x =>
    intro s t hsp _ _
    show some t = some (dappend t .dnil)
    rw [dappend_dnil hsp]
  | dcons k dv rest _ ihrest =>
    intro s t hsp hg h
    obtain ⟨hgk, hnc, _, hgdv, hgrest⟩ := goodT_dcons hg
    rw [missingSegs_dcons, addMissingT_dcons]
    by_cases hc : containsKey s k = true
    · rw [if_pos hc, if_pos hc, List.nil_append]
      exact ihrest s t hsp hgrest (fun k2 h1 h2 =>
        h k2 (by rw [containsKey_dcons, h1, Bool.or_true]) h2)
    · rw [if_neg hc, if_neg hc]
      have hc2 : containsKey s k = false := Bool.eq_false_iff.mpr hc
      have hct : containsKey t k = false :=
        h k (by rw [containsKey_dcons]; simp) hc2
      show (match addSegs t [k] dv with
        | some s2 => applyAddsSeg s2 (missingSegs rest s)
        | none => none) = some (dappend t (.dcons k dv (addMissingT rest s)))
      rw [show addSegs t [k] dv = some (setKey t k dv) from by
        show (if isDict t = true then some (setKey t k dv) else none) = _
        rw [if_pos (isSpine_isDict hsp)]]
      show applyAddsSeg (setKey t k dv) (missingSegs rest s) =
        some (dappend t (.dcons k dv (addMissingT rest s)))
      have hfresh : ∀ k2, containsKey rest k2 = true →
          containsKey s k2 = false →
          containsKey (dappend t (.dcons k dv .dnil)) k2 = false := by
        intro k2 h1 h2
        have hkk : k ≠ k2 := fun he => by
          rw [← he, hnc] at h1
          exact Bool.false_ne_true h1
        rw [containsKey_dappend,
          h k2 (by rw [containsKey_dcons, h1, Bool.or_true]) h2]
        simp [containsKey, lookupKey, hkk]
      rw [setKey_append_of_not_mem k dv hct,
        ihrest s (dappend t (.dcons k dv .dnil))
          (isSpine_dappend hsp rfl) hgrest hfresh,
        dappend_assoc]
      rfl

/-- The nested additions of the first loop, applied at segment level to the
pruned tree, rebuild exactly the kept spine with every nested pair fully
merged. -/
theorem applyAddsSeg_keep (s : PTree) : ∀ ds : PTree,
    goodT s = true → goodT ds = true →
    applyAddsSeg (pruneSpine s ds) (planSegsAddAux s ds) =
      some (keepSpine s ds) := by
  induction s with
  | dnil => intro ds _ _; rfl
  | leaf x => intro ds _ _; rfl
  | dcons k v rest ihv ihrest =>
    intro ds hg hgds
    obtain ⟨hgk, hnc, hdrest, hgv, hgrest⟩ := goodT_dcons hg
    have hskip : ∀ kv ∈ planSegsAddAux rest ds,
        ∃ p π2, kv.1 = p :: π2 ∧ π2 ≠ [] ∧ k ≠ p := by
      intro kv hkv
      obtain ⟨⟨p, π2, he, hne2, hck⟩, _⟩ :=
        auxSegs_shape rest ds hgrest hgds kv hkv
      exact ⟨p, π2, he, hne2, fun hkp => by
        rw [← hkp, hnc] at hck
        exact Bool.false_ne_true hck⟩
    rcases hlk : lookupKey ds k with _ | dv
    · rw [planSegsAddAux_none v rest hlk, pruneSpine_none v rest hlk,
        keepSpine_none v rest hlk]
      exact ihrest ds hgrest hgds
    · have hgdv := goodT_lookup hgds hlk
      rw [planSegsAddAux_some v rest hlk, pruneSpine_some v rest hlk,
        keepSpine_some v rest hlk]
      by_cases hbd : (isDict v && isDict dv) = true
      · rw [if_pos hbd, if_pos hbd, if_pos hbd, applyAddsSeg_append]
        obtain ⟨hdv, hddv⟩ := Bool.and_eq_true_iff.mp hbd
        have hdesc : ∀ kv ∈ planSegsAddAux v dv ++ missingSegs dv v,
            kv.1 ≠ [] := by
          intro kv hkv
          rcases List.mem_append.mp hkv with h1 | h1
          · obtain ⟨⟨p, π2, he, _, _⟩, _⟩ :=
              auxSegs_shape v dv hgv hgdv kv h1
            rw [he]
            simp
          · obtain ⟨⟨p, he, _, _, _⟩, _⟩ :=
              missingSegs_shape dv v hgdv kv h1
            rw [he]
            simp
        rw [applyAddsSeg_descend_group k (pruneSpine rest ds) _
          (pruneSpine v dv) hdesc]
        have hfresh : ∀ k2, containsKey dv k2 = true →
            containsKey v k2 = false →
            containsKey (keepSpine v dv) k2 = false := by
          intro k2 _ h2
          rw [Bool.eq_false_iff]
          intro hck
          rw [containsKey_keepSpine_sub dv k2 hck] at h2
          exact Bool.noConfusion h2
        have hinner : applyAddsSeg (pruneSpine v dv)
            (planSegsAddAux v dv ++ missingSegs dv v) = some (mergeT v dv) := by
          rw [applyAddsSeg_append, ihv dv hgv hgdv]
          show applyAddsSeg (keepSpine v dv) (missingSegs dv v) =
            some (mergeT v dv)
          rw [applyAddsSeg_missing dv v (keepSpine v dv)
              (isSpine_keepSpine dv (goodT_isSpine hgv hdv)) hgdv hfresh,
            show mergeT v dv = mergeAux v v dv from rfl, mergeAux_split]
        rw [hinner]
        show applyAddsSeg (.dcons k (mergeT v dv) (pruneSpine rest ds))
          (planSegsAddAux rest ds) = _
        rw [applyAddsSeg_skip_group k (mergeT v dv) _ (pruneSpine rest ds)
          hskip, ihrest ds hgrest hgds]
        rfl
      · rw [if_neg hbd, if_neg hbd, if_neg hbd, List.nil_append]
        rw [applyAddsSeg_skip_group k v _ (pruneSpine rest ds) hskip,
          ihrest ds hgrest hgds]
        rfl

/-- The full addition phase, applied at segment level to the pruned tree,
yields the one-pass merge denotation. -/
theorem applyAddsSeg_plan (s ds : PTree) (hg : goodT s = true)
    (hgds : goodT ds = true) (hd : isDict s = true) :
    applyAddsSeg (pruneSpine s ds) (planSegsAdd s ds) = some (mergeT s ds) := by
  have hfresh : ∀ k2, containsKey ds k2 = true → containsKey s k2 = false →
      containsKey (keepSpine s ds) k2 = false := by
    intro k2 _ h2
    rw [Bool.eq_false_iff]
    intro hck
    rw [containsKey_keepSpine_sub ds k2 hck] at h2
    exact Bool.noConfusion h2
  show applyAddsSeg (pruneSpine s ds)
    (planSegsAddAux s ds ++ missingSegs ds s) = some (mergeT s ds)
  rw [applyAddsSeg_append, applyAddsSeg_keep s ds hg hgds]
  show applyAddsSeg (keepSpine s ds) (missingSegs ds s) = some (mergeT s ds)
  rw [applyAddsSeg_missing ds s (keepSpine s ds)
      (isSpine_keepSpine ds (goodT_isSpine hg hd)) hgds hfresh,
    show mergeT s ds = mergeAux s s ds from rfl, mergeAux_split]

/-- Applying dotted removal paths that encode nonempty dot-free segment
paths is the same as the segment-level walk. -/
theorem applyRemovals_enc (L : List (List Key)) : ∀ s : PTree,
    (∀ π ∈ L, π ≠ [] ∧ ∀ x ∈ π, goodKey x = true) →
    applyRemovals s (L.map (encFrom [])) = applyRemsSeg s L := by
  induction L with
  | nil => intro s _; rfl
  | cons π L ih =>
    intro s h
    obtain ⟨hne, hgood⟩ := h π (by simp)
    rw [List.map_cons,
      show applyRemovals s (encFrom [] π :: L.map (encFrom [])) =
        (match remove_key s (encFrom [] π) with
         | some s2 => applyRemovals s2 (L.map (encFrom []))
         | none => none) from rfl,
      show remove_key s (encFrom [] π) =
        removeSegs s (splitDot (encFrom [] π)) from rfl,
      splitDot_encFrom π [] hne hgood,
      show segsOf [] ++ π = π from by simp [segsOf],
      show applyRemsSeg s (π :: L) =
        (match removeSegs s π with
         | some s2 => applyRemsSeg s2 L
         | none => none) from rfl]
    rcases h2 : removeSegs s π with _ | x
    · rfl
    · exact ih x (fun π2 hm => h π2 (List.mem_cons_of_mem _ hm))

/-- Applying dotted additions that encode nonempty dot-free segment paths
is the same as the segment-level walk. -/
theorem applyAdditions_enc (L : List (List Key × PTree)) : ∀ s : PTree,
    (∀ kv ∈ L, kv.1 ≠ [] ∧ ∀ x ∈ kv.1, goodKey x = true) →
    applyAdditions s (L.map (fun kv => (encFrom [] kv.1, kv.2))) =
      applyAddsSeg s L := by
  induction L with
  | nil => intro s _; rfl
  | cons kv L ih =>
    intro s h
    obtain ⟨hne, hgood⟩ := h kv (by simp)
    rw [List.map_cons,
      show applyAdditions s ((encFrom [] kv.1, kv.2) ::
          L.map (fun kv => (encFrom [] kv.1, kv.2))) =
        (match add_key s (encFrom [] kv.1) kv.2 with
         | some s2 => applyAdditions s2 (L.map (fun kv => (encFrom [] kv.1, kv.2)))
         | none => none) from rfl,
      show add_key s (encFrom [] kv.1) kv.2 =
        addSegs s (splitDot (encFrom [] kv.1)) kv.2 from rfl,
      splitDot_encFrom kv.1 [] hne hgood,
      show segsOf [] ++ kv.1 = kv.1 from by simp [segsOf],
      show applyAddsSeg s (kv :: L) =
        (match addSegs s kv.1 kv.2 with
         | some s2 => applyAddsSeg s2 L
         | none => none) from rfl]
    rcases h2 : addSegs s kv.1 kv.2 with _ | x
    · rfl
    · exact ih x (fun kv2 hm => h kv2 (List.mem_cons_of_mem _ hm))

/-- One successful run of `sanitize_settings` on trees with sane keys is
exactly the one-pass recursive merge. -/
theorem sanitize_settings_merge (s ds : PTree) (hg : goodT s = true)
    (hgds : goodT ds = true) (hd : isDict s = true) :
    sanitize_settings s ds = .ok (mergeT s ds) := by
  have hplan := sanitize_plan_corr s ds [] hg hgds
  have hsh1 : ∀ π ∈ planSegsRem s ds, π ≠ [] ∧
      ∀ x ∈ π, goodKey x = true := by
    intro π hπ
    obtain ⟨⟨p, π2, he, _⟩, hgd⟩ := remSegs_shape s ds hg π hπ
    exact ⟨by rw [he]; simp, hgd⟩
  have hsh2 : ∀ kv ∈ planSegsAdd s ds, kv.1 ≠ [] ∧
      ∀ x ∈ kv.1, goodKey x = true := by
    intro kv hkv
    rcases List.mem_append.mp hkv with h1 | h1
    · obtain ⟨⟨p, π2, he, _, _⟩, hgd⟩ := auxSegs_shape s ds hg hgds kv h1
      exact ⟨by rw [he]; simp, hgd⟩
    · obtain ⟨⟨p, he, _, _, _⟩, hgd⟩ := missingSegs_shape ds s hgds kv h1
      exact ⟨by rw [he]; simp, hgd⟩
  have hrem : applyRemovals s (sanitize_plan s ds []).1 =
      some (pruneSpine s ds) := by
    rw [hplan]
    show applyRemovals s ((planSegsRem s ds).map (encFrom [])) = _
    rw [applyRemovals_enc _ s hsh1, applyRemsSeg_prune s ds hg]
  have hadd : applyAdditions (pruneSpine s ds) (sanitize_plan s ds []).2 =
      some (mergeT s ds) := by
    rw [hplan]
    show applyAdditions (pruneSpine s ds)
      ((planSegsAdd s ds).map (fun kv => (encFrom [] kv.1, kv.2))) = _
    rw [applyAdditions_enc _ (pruneSpine s ds) hsh2,
      applyAddsSeg_plan s ds hg hgds hd]
  show (match applyRemovals s (sanitize_plan s ds []).1 with
    | none => Except.error SanErr.uncaught
    | some s1 =>
      match applyAdditions s1 (sanitize_plan s ds []).2 with
      | none => Except.error SanErr.uncaught
      | some s2 => Except.ok s2) = Except.ok (mergeT s ds)
  rw [hrem]
  show (match applyAdditions (pruneSpine s ds) (sanitize_plan s ds []).2 with
    | none => Except.error SanErr.uncaught
    | some s2 => Except.ok s2) = Except.ok (mergeT s ds)
  rw [hadd]

theorem isDict_dappend (t : PTree) {u : PTree} (hu : isDict u = true) :
    isDict (dappend t u) = true := by
  cases t with
  | dcons k v rest => rfl
  | dnil => exact hu
  | leaf x => exact hu

theorem isDict_addMissingT (ds : PTree) : ∀ s : PTree,
    isDict (addMissingT ds s) = true := by
  induction ds with
  | dcons k dv rest _ ihrest =>
    intro s
    rw [addMissingT_dcons]
    by_cases hc : containsKey s k = true
    · rw [if_pos hc]
      exact ihrest s
    · rw [if_neg hc]
      rfl
  | dnil => intro s; rfl
  | leaf x => intro s; rfl

theorem isDict_mergeT (s ds : PTree) : isDict (mergeT s ds) = true := by
  rw [show mergeT s ds = mergeAux s s ds from rfl, mergeAux_split]
  exact isDict_dappend _ (isDict_addMissingT ds s)

theorem containsKey_addMissingT (ds : PTree) : ∀ (s : PTree) (k : Key),
    containsKey (addMissingT ds s) k = true → containsKey s k = false := by
  induction ds with
  | dcons k2 dv rest _ ihrest =>
    intro s k h
    rw [addMissingT_dcons] at h
    by_cases hc : containsKey s k2 = true
    · rw [if_pos hc] at h
      exact ihrest s k h
    · rw [if_neg hc, containsKey_dcons] at h
      rcases Bool.or_eq_true_iff.mp h with h2 | h2
      · rw [← of_decide_eq_true h2]
        exact Bool.eq_false_iff.mpr hc
      · exact ihrest s k h2
  | dnil =>
    intro s k h
    exact absurd h (by simp [addMissingT, containsKey, lookupKey])
  | leaf x =>
    intro s k h
    exact absurd h (by simp [addMissingT, containsKey, lookupKey])

theorem lookupKey_addMissingT (ds : PTree) : ∀ (s : PTree) (k : Key) (w : PTree),
    goodT ds = true → lookupKey (addMissingT ds s) k = some w →
    lookupKey ds k = some w := by
  induction ds with
  | dcons k2 dv rest _ ihrest =>
    intro s k w hg h
    obtain ⟨_, hnc, _, _, hgrest⟩ := goodT_dcons hg
    rw [addMissingT_dcons] at h
    by_cases hc : containsKey s k2 = true
    · rw [if_pos hc] at h
      have h2 := ihrest s k w hgrest h
      have hne : k2 ≠ k := fun he => by
        rw [he] at hnc
        simp [containsKey, h2] at hnc
      rw [lookupKey, if_neg hne]
      exact h2
    · rw [if_neg hc] at h
      by_cases hk : k2 = k
      · rw [lookupKey, if_pos hk] at h
        rw [lookupKey, if_pos hk]
        exact h
      · rw [lookupKey, if_neg hk] at h
        rw [lookupKey, if_neg hk]
        exact ihrest s k w hgrest h
  | dnil =>
    intro s k w _ h
    exact absurd h (by simp [addMissingT, lookupKey])
  | leaf x =>
    intro s k w _ h
    exact absurd h (by simp [addMissingT, lookupKey])

theorem goodT_addMissingT (ds : PTree) : ∀ s : PTree, goodT ds = true →
    goodT (addMissingT ds s) = true := by
  induction ds with
  | dcons k dv rest _ ihrest =>
    intro s hg
    obtain ⟨hgk, hnc, _, hgdv, hgrest⟩ := goodT_dcons hg
    rw [addMissingT_dcons]
    by_cases hc : containsKey s k = true
    · rw [if_pos hc]
      exact ihrest s hgrest
    · rw [if_neg hc]
      have h1 : containsKey (addMissingT rest s) k = false := by
        rw [Bool.eq_false_iff]
        intro hck
        simp only [containsKey, Option.isSome_iff_exists] at hck
        obtain ⟨w, hw⟩ := hck
        have h2 := lookupKey_addMissingT rest s k w hgrest hw
        simp [containsKey, h2] at hnc
      simp only [goodT, Bool.and_eq_true, Bool.not_eq_true']
      exact ⟨⟨⟨⟨hgk, h1⟩, isDict_addMissingT rest s⟩, hgdv⟩, ihrest s hgrest⟩
  | dnil => intro s _; rfl
  | leaf x => intro s _; rfl

theorem goodT_dappend {t : PTree} : ∀ u : PTree, goodT t = true →
    goodT u = true → isDict u = true →
    (∀ k, containsKey t k = true → containsKey u k = false) →
    goodT (dappend t u) = true := by
  induction t with
  | dcons k v rest _ ihrest =>
    intro u hg hgu hdu hdisj
    obtain ⟨hgk, hnc, hdrest, hgv, hgrest⟩ := goodT_dcons hg
    rw [dappend]
    have h1 : containsKey (dappend rest u) k = false := by
      rw [containsKey_dappend, hnc,
        hdisj k (by rw [containsKey_dcons]; simp)]
      rfl
    simp only [goodT, Bool.and_eq_true, Bool.not_eq_true']
    exact ⟨⟨⟨⟨hgk, h1⟩, isDict_dappend rest hdu⟩, hgv⟩,
      ihrest u hgrest hgu hdu (fun k2 h2 =>
        hdisj k2 (by rw [containsKey_dcons, h2, Bool.or_true]))⟩
  | dnil => intro u _ hgu _ _; exact hgu
  | leaf x => intro u _ hgu _ _; exact hgu

/-- Sane keys are preserved through the merge: the kept spine and the merged
tree are again `goodT`. -/
theorem goodT_keepSpine_mergeT (s : PTree) : ∀ ds : PTree,
    goodT s = true → goodT ds = true →
    goodT (keepSpine s ds) = true ∧ goodT (mergeT s ds) = true := by
  induction s with
  | dcons k v rest ihv ihrest =>
    intro ds hg hgds
    obtain ⟨hgk, hnc, hdrest, hgv, hgrest⟩ := goodT_dcons hg
    have hkeep : goodT (keepSpine (.dcons k v rest) ds) = true := by
      rcases hlk : lookupKey ds k with _ | dv
      · rw [keepSpine_none v rest hlk]
        exact (ihrest ds hgrest hgds).1
      · rw [keepSpine_some v rest hlk]
        have hgdv := goodT_lookup hgds hlk
        have hC : goodT (if (isDict v && isDict dv) = true then
            mergeT v dv else v) = true := by
          by_cases hbd : (isDict v && isDict dv) = true
          · rw [if_pos hbd]
            exact (ihv dv hgv hgdv).2
          · rw [if_neg hbd]
            exact hgv
        have h1 : containsKey (keepSpine rest ds) k = false := by
          rw [Bool.eq_false_iff]
          intro hck
          rw [containsKey_keepSpine_sub ds k hck] at hnc
          exact Bool.noConfusion hnc
        rw [goodT, hgk, h1,
          isSpine_isDict (isSpine_keepSpine ds (goodT_isSpine hgrest hdrest)),
          hC, (ihrest ds hgrest hgds).1]
        rfl
    refine ⟨hkeep, ?_⟩
    rw [show mergeT (.dcons k v rest) ds =
      mergeAux (.dcons k v rest) (.dcons k v rest) ds from rfl, mergeAux_split]
    refine goodT_dappend _ hkeep (goodT_addMissingT ds _ hgds)
      (isDict_addMissingT ds _) ?_
    intro k2 h2
    have h3 := containsKey_keepSpine_sub ds k2 h2
    rw [Bool.eq_false_iff]
    intro hck
    rw [containsKey_addMissingT ds _ k2 hck] at h3
    exact Bool.noConfusion h3
  | dnil =>
    intro ds _ hgds
    refine ⟨rfl, ?_⟩
    show goodT (addMissingT ds .dnil) = true
    exact goodT_addMissingT ds .dnil hgds
  | leaf x =>
    intro ds _ hgds
    refine ⟨rfl, ?_⟩
    show goodT (addMissingT ds (.leaf x)) = true
    exact goodT_addMissingT ds _ hgds

theorem missingSegs_nil_of (ds : PTree) : ∀ s : PTree,
    (∀ k, containsKey ds k = true → containsKey s k = true) →
    missingSegs ds s = [] := by
  induction ds with
  | dcons k dv rest _ ihrest =>
    intro s h
    rw [missingSegs_dcons,
      if_pos (h k (by rw [containsKey_dcons]; simp)), List.nil_append]
    exact ihrest s (fun k2 h2 => h k2 (by rw [containsKey_dcons, h2, Bool.or_true]))
  | dnil => intro s _; rfl
  | leaf x => intro s _; rfl

/-- A tree each of whose bindings the defaults reproduce exactly generates
no removals. -/
theorem planSegsRem_self (s : PTree) : ∀ ds : PTree, goodT s = true →
    (∀ k w, lookupKey s k = some w → lookupKey ds k = some w) →
    planSegsRem s ds = [] := by
  induction s with
  | dnil => intro ds _ _; rfl
  | leaf x => intro ds _ _; rfl
  | dcons k v rest ihv ihrest =>
    intro ds hg hsub
    obtain ⟨hgk, hnc, hdrest, hgv, hgrest⟩ := goodT_dcons hg
    have hlk : lookupKey ds k = some v :=
      hsub k v (by rw [lookupKey, if_pos rfl])
    rw [planSegsRem_some v rest hlk]
    have hrest : planSegsRem rest ds = [] := by
      refine ihrest ds hgrest (fun k2 w h2 => hsub k2 w ?_)
      have hne : k ≠ k2 := fun he => by
        rw [he] at hnc
        simp [containsKey, h2] at hnc
      rw [lookupKey, if_neg hne]
      exact h2
    by_cases hbd : (isDict v && isDict v) = true
    · rw [if_pos hbd, hrest, ihv v hgv (fun _ _ h => h)]
      rfl
    · rw [if_neg hbd, hrest]
      rfl

/-- A tree each of whose bindings the defaults reproduce exactly generates
no nested additions. -/
theorem planSegsAddAux_self (s : PTree) : ∀ ds : PTree, goodT s = true →
    (∀ k w, lookupKey s k = some w → lookupKey ds k = some w) →
    planSegsAddAux s ds = [] := by
  induction s with
  | dnil => intro ds _ _; rfl
  | leaf x => intro ds _ _; rfl
  | dcons k v rest ihv ihrest =>
    intro ds hg hsub
    obtain ⟨hgk, hnc, hdrest, hgv, hgrest⟩ := goodT_dcons hg
    have hlk : lookupKey ds k = some v :=
      hsub k v (by rw [lookupKey, if_pos rfl])
    rw [planSegsAddAux_some v rest hlk]
    have hrest : planSegsAddAux rest ds = [] := by
      refine ihrest ds hgrest (fun k2 w h2 => hsub k2 w ?_)
      have hne : k ≠ k2 := fun he => by
        rw [he] at hnc
        simp [containsKey, h2] at hnc
      rw [lookupKey, if_neg hne]
      exact h2
    by_cases hbd : (isDict v && isDict v) = true
    · rw [if_pos hbd, hrest, ihv v hgv (fun _ _ h => h),
        missingSegs_nil_of v v (fun _ h => h)]
      rfl
    · rw [if_neg hbd, hrest]
      rfl

theorem containsKey_keepSpine_full (s : PTree) : ∀ (ds : PTree) (k : Key),
    containsKey s k = true → containsKey ds k = true →
    containsKey (keepSpine s ds) k = true := by
  induction s with
  | dcons k2 v rest _ ihrest =>
    intro ds k hs hds
    rcases hlk : lookupKey ds k2 with _ | dv
    · rw [keepSpine_none v rest hlk]
      have hne : k2 ≠ k := fun he => by
        rw [he] at hlk
        simp [containsKey, hlk] at hds
      rw [containsKey_dcons] at hs
      rcases Bool.or_eq_true_iff.mp hs with h2 | h2
      · exact absurd (of_decide_eq_true h2) hne
      · exact ihrest ds k h2 hds
    · rw [keepSpine_some v rest hlk, containsKey_dcons]
      by_cases hk : k2 = k
      · rw [hk]
        simp
      · rw [containsKey_dcons] at hs
        rcases Bool.or_eq_true_iff.mp hs with h2 | h2
        · exact absurd (of_decide_eq_true h2) hk
        · rw [ihrest ds k h2 hds, Bool.or_true]
  | dnil =>
    intro ds k hs _
    exact absurd hs (by simp [containsKey, lookupKey])
  | leaf x =>
    intro ds k hs _
    exact absurd hs (by simp [containsKey, lookupKey])

theorem containsKey_addMissingT_full (ds : PTree) : ∀ (s : PTree) (k : Key),
    containsKey ds k = true → containsKey s k = false →
    containsKey (addMissingT ds s) k = true := by
  induction ds with
  | dcons k2 dv rest _ ihrest =>
    intro s k hds hs
    rw [addMissingT_dcons]
    rw [containsKey_dcons] at hds
    by_cases hk : k2 = k
    · subst hk
      rw [if_neg (by simp [hs]), containsKey_dcons]
      simp
    · have h2 : containsKey rest k = true := by
        rcases Bool.or_eq_true_iff.mp hds with h3 | h3
        · exact absurd (of_decide_eq_true h3) hk
        · exact h3
      by_cases hc : containsKey s k2 = true
      · rw [if_pos hc]
        exact ihrest s k h2 hs
      · rw [if_neg hc, containsKey_dcons, ihrest s k h2 hs, Bool.or_true]
  | dnil =>
    intro s k hds _
    exact absurd hds (by simp [containsKey, lookupKey])
  | leaf x =>
    intro s k hds _
    exact absurd hds (by simp [containsKey, lookupKey])

/-- After one merge, no default key is missing. -/
theorem missingSegs_mergeT (s ds : PTree) :
    missingSegs ds (mergeT s ds) = [] := by
  apply missingSegs_nil_of
  intro k hds
  rw [show mergeT s ds = mergeAux s s ds from rfl, mergeAux_split,
    containsKey_dappend]
  by_cases hs : containsKey s k = true
  · rw [containsKey_keepSpine_full s ds k hs hds]
    rfl
  · rw [containsKey_addMissingT_full ds s k hds (Bool.eq_false_iff.mpr hs),
      Bool.or_true]

theorem planSegsRem_dappend (A : PTree) : ∀ (B ds : PTree),
    planSegsRem (dappend A B) ds = planSegsRem A ds ++ planSegsRem B ds := by
  induction A with
  | dcons k v rest _ ihrest =>
    intro B ds
    rw [dappend]
    rcases hlk : lookupKey ds k with _ | dv
    · rw [planSegsRem_none v _ hlk, planSegsRem_none v rest hlk, ihrest]
      rfl
    · rw [planSegsRem_some v _ hlk, planSegsRem_some v rest hlk, ihrest,
        List.append_assoc]
  | dnil => intro B ds; rfl
  | leaf x => intro B ds; rfl

theorem planSegsAddAux_dappend (A : PTree) : ∀ (B ds : PTree),
    planSegsAddAux (dappend A B) ds =
      planSegsAddAux A ds ++ planSegsAddAux B ds := by
  induction A with
  | dcons k v rest _ ihrest =>
    intro B ds
    rw [dappend]
    rcases hlk : lookupKey ds k with _ | dv
    · rw [planSegsAddAux_none v _ hlk, planSegsAddAux_none v rest hlk, ihrest]
    · rw [planSegsAddAux_some v _ hlk, planSegsAddAux_some v rest hlk, ihrest,
        List.append_assoc]
  | dnil => intro B ds; rfl
  | leaf x => intro B ds; rfl

/-- Against the same defaults, a second plan over a merged tree is empty:
no removals, no nested additions, no missing keys.  The fuel `n` bounds the
size of the default tree, which shrinks at each nested recursion. -/
theorem aligned_main (n : Nat) : ∀ ds s : PTree, sizeOf ds < n →
    goodT s = true → goodT ds = true →
    planSegsRem (mergeT s ds) ds = [] ∧
    planSegsAddAux (mergeT s ds) ds = [] ∧
    missingSegs ds (mergeT s ds) = [] := by
  induction n with
  | zero => intro ds s h _ _; exact absurd h (by omega)
  | succ n ih =>
    intro ds s hlt hg hgds
    have hkeepAll : ∀ t : PTree, goodT t = true →
        planSegsRem (keepSpine t ds) ds = [] ∧
        planSegsAddAux (keepSpine t ds) ds = [] := by
      intro t
      induction t with
      | dnil => intro _; exact ⟨rfl, rfl⟩
      | leaf x => intro _; exact ⟨rfl, rfl⟩
      | dcons k v rest _ ihrest2 =>
        intro hgt
        obtain ⟨hgk, hnc, hdrest, hgv, hgrest⟩ := goodT_dcons hgt
        rcases hlk : lookupKey ds k with _ | dv
        · rw [keepSpine_none v rest hlk]
          exact ihrest2 hgrest
        · rw [keepSpine_some v rest hlk]
          have hgdv := goodT_lookup hgds hlk
          have hsz : sizeOf dv < n := by
            have h2 := lookupKey_size hlk
            omega
          by_cases hbd : (isDict v && isDict dv) = true
          · rw [if_pos hbd]
            obtain ⟨hA, hB, hC⟩ := ih dv v hsz hgv hgdv
            have hcond : (isDict (mergeT v dv) && isDict dv) = true := by
              rw [isDict_mergeT, (Bool.and_eq_true_iff.mp hbd).2]
              rfl
            constructor
            · rw [planSegsRem_some _ _ hlk, if_pos hcond, hA,
                (ihrest2 hgrest).1]
              rfl
            · rw [planSegsAddAux_some _ _ hlk, if_pos hcond, hB, hC,
                (ihrest2 hgrest).2]
              rfl
          · rw [if_neg hbd]
            constructor
            · rw [planSegsRem_some _ _ hlk, if_neg hbd, (ihrest2 hgrest).1]
              rfl
            · rw [planSegsAddAux_some _ _ hlk, if_neg hbd, (ihrest2 hgrest).2]
              rfl
    have hAMrem : planSegsRem (addMissingT ds s) ds = [] :=
      planSegsRem_self (addMissingT ds s) ds (goodT_addMissingT ds s hgds)
        (fun k w h => lookupKey_addMissingT ds s k w hgds h)
    have hAMaux : planSegsAddAux (addMissingT ds s) ds = [] :=
      planSegsAddAux_self (addMissingT ds s) ds (goodT_addMissingT ds s hgds)
        (fun k w h => lookupKey_addMissingT ds s k w hgds h)
    refine ⟨?_, ?_, missingSegs_mergeT s ds⟩
    · rw [show mergeT s ds = mergeAux s s ds from rfl, mergeAux_split,
        planSegsRem_dappend, (hkeepAll s hg).1, hAMrem]
      rfl
    · rw [show mergeT s ds = mergeAux s s ds from rfl, mergeAux_split,
        planSegsAddAux_dappend, (hkeepAll s hg).2, hAMaux]
      rfl

/-- C4: the reconciliation of base.py is idempotent *for trees whose dict
keys are nonempty, dot-free and (as Python guarantees) distinct*: one run of
`sanitize_settings` succeeds, a second run against the same defaults
computes an empty plan (no removals, no additions) and returns its input
unchanged.  Without the dot-free proviso the claim fails
(`C4_dotted_key_counterexample`). -/
theorem C4_sanitize_idempotent (s d : PTree)
    (hg : goodT s = true) (hgd : goodT d = true) (hd : isDict s = true) :
    ∃ m, sanitize_settings s d = .ok m ∧
      sanitize_settings m d = .ok m ∧
      sanitize_plan m d [] = ([], []) := by
  have hgm := (goodT_keepSpine_mergeT s d hg hgd).2
  have hal := aligned_main (sizeOf d + 1) d s (by omega) hg hgd
  have hplan : sanitize_plan (mergeT s d) d [] = ([], []) := by
    rw [sanitize_plan_corr (mergeT s d) d [] hgm hgd, hal.1,
      show planSegsAdd (mergeT s d) d =
        planSegsAddAux (mergeT s d) d ++ missingSegs d (mergeT s d) from rfl,
      hal.2.1, hal.2.2]
    rfl
  refine ⟨mergeT s d, sanitize_settings_merge s d hg hgd hd, ?_, hplan⟩
  show (match applyRemovals (mergeT s d) (sanitize_plan (mergeT s d) d []).1 with
    | none => Except.error SanErr.uncaught
    | some s1 =>
      match applyAdditions s1 (sanitize_plan (mergeT s d) d []).2 with
      | none => Except.error SanErr.uncaught
      | some s2 => Except.ok s2) = Except.ok (mergeT s d)
  rw [hplan]
  rfl

/-- Witness: a concrete settings/defaults pair with sane keys on which the
idempotence theorem applies. -/
theorem C4_sanitize_idempotent_witness :
    goodT (PTree.dcons ['a'] (.leaf 1)
      (.dcons ['n'] (.dcons ['b'] (.leaf 2) .dnil) .dnil)) = true ∧
    goodT (PTree.dcons ['n'] (.dcons ['c'] (.leaf 3) .dnil)
      (.dcons ['e'] (.leaf 4) .dnil)) = true ∧
    isDict (PTree.dcons ['a'] (.leaf 1)
      (.dcons ['n'] (.dcons ['b'] (.leaf 2) .dnil) .dnil)) = true ∧
    (∃ m, sanitize_settings
        (PTree.dcons ['a'] (.leaf 1)
          (.dcons ['n'] (.dcons ['b'] (.leaf 2) .dnil) .dnil))
        (PTree.dcons ['n'] (.dcons ['c'] (.leaf 3) .dnil)
          (.dcons ['e'] (.leaf 4) .dnil)) = .ok m ∧
      sanitize_settings m
        (PTree.dcons ['n'] (.dcons ['c'] (.leaf 3) .dnil)
          (.dcons ['e'] (.leaf 4) .dnil)) = .ok m ∧
      sanitize_plan m
        (PTree.dcons ['n'] (.dcons ['c'] (.leaf 3) .dnil)
          (.dcons ['e'] (.leaf 4) .dnil)) [] = ([], [])) :=
  ⟨by decide, by decide, by decide,
    C4_sanitize_idempotent
      (PTree.dcons ['a'] (.leaf 1)
        (.dcons ['n'] (.dcons ['b'] (.leaf 2) .dnil) .dnil))
      (PTree.dcons ['n'] (.dcons ['c'] (.leaf 3) .dnil)
        (.dcons ['e'] (.leaf 4) .dnil))
      (by decide) (by decide) (by decide)⟩

theorem lookupKey_dappend (A : PTree) : ∀ (B : PTree) (k : Key),
    lookupKey (dappend A B) k =
      (match lookupKey A k with
       | some w => some w
       | none => lookupKey B k) := by
  induction A with
  | dcons k2 v rest _ ihrest =>
    intro B k
    rw [dappend]
    by_cases hk : k2 = k
    · rw [lookupKey, if_pos hk, lookupKey, if_pos hk]
    · rw [lookupKey, if_neg hk, lookupKey, if_neg hk, ihrest]
  | dnil => intro B k; rfl
  | leaf x => intro B k; rfl

theorem lookupKey_keepSpine {s : PTree} (d : PTree) {k : Key} {v dv : PTree}
    (hg : goodT s = true) (hv : lookupKey s k = some v)
    (hdv : lookupKey d k = some dv) :
    lookupKey (keepSpine s d) k =
      some (if (isDict v && isDict dv) = true then mergeT v dv else v) := by
  induction s with
  | dcons k2 w rest _ ihrest =>
    obtain ⟨_, hnc, _, _, hgrest⟩ := goodT_dcons hg
    by_cases hk : k2 = k
    · subst hk
      rw [lookupKey, if_pos rfl] at hv
      injection hv with hv2
      subst hv2
      rw [keepSpine_some w rest hdv, lookupKey, if_pos rfl]
    · rw [lookupKey, if_neg hk] at hv
      rcases hlk2 : lookupKey d k2 with _ | dv2
      · rw [keepSpine_none w rest hlk2]
        exact ihrest hgrest hv
      · rw [keepSpine_some w rest hlk2, lookupKey, if_neg hk]
        exact ihrest hgrest hv
  | dnil => exact absurd hv (by simp [lookupKey])
  | leaf x => exact absurd hv (by simp [lookupKey])

theorem lookupKey_mergeT {s d : PTree} {k : Key} {v dv : PTree}
    (hg : goodT s = true) (hv : lookupKey s k = some v)
    (hdv : lookupKey d k = some dv) :
    lookupKey (mergeT s d) k =
      some (if (isDict v && isDict dv) = true then mergeT v dv else v) := by
  rw [show mergeT s d = mergeAux s s d from rfl, mergeAux_split,
    lookupKey_dappend, lookupKey_keepSpine d hg hv hdv]

/-- A path present in both trees whose endpoint is not a both-dict pair
keeps its settings-side value through the merge. -/
theorem lookupPath_mergeT (q : List Key) : ∀ (s d x y : PTree), q ≠ [] →
    goodT s = true → goodT d = true →
    lookupPath s q = some x → lookupPath d q = some y →
    (isDict x && isDict y) = false →
    lookupPath (mergeT s d) q = some x := by
  induction q with
  | nil => intro s d x y hq; exact absurd rfl hq
  | cons k q2 ih =>
    intro s d x y _ hg hgd hx hy hnb
    rw [show lookupPath s (k :: q2) =
      (match lookupKey s k with
       | some v => lookupPath v q2
       | none => none) from rfl] at hx
    rw [show lookupPath d (k :: q2) =
      (match lookupKey d k with
       | some v => lookupPath v q2
       | none => none) from rfl] at hy
    rcases hlkv : lookupKey s k with _ | v
    · rw [hlkv] at hx
      exact absurd hx (by simp)
    rcases hlkd : lookupKey d k with _ | dv
    · rw [hlkd] at hy
      exact absurd hy (by simp)
    rw [hlkv] at hx
    rw [hlkd] at hy
    rw [show lookupPath (mergeT s d) (k :: q2) =
      (match lookupKey (mergeT s d) k with
       | some v => lookupPath v q2
       | none => none) from rfl, lookupKey_mergeT hg hlkv hlkd]
    show lookupPath (if (isDict v && isDict dv) = true then
      mergeT v dv else v) q2 = some x
    rcases q2 with _ | ⟨k2, q3⟩
    · have hxv : v = x := Option.some.inj hx
      have hyd : dv = y := Option.some.inj hy
      subst hxv
      subst hyd
      rw [if_neg (by rw [hnb]; exact Bool.false_ne_true)]
      exact hx
    · by_cases hbd : (isDict v && isDict dv) = true
      · rw [if_pos hbd]
        exact ih v dv x y (by simp) (goodT_lookup hg hlkv)
          (goodT_lookup hgd hlkd) hx hy hnb
      · rw [if_neg hbd]
        exact hx

/-- C5: `sanitize_settings` of base.py preserves present values *for trees
whose dict keys are nonempty, dot-free and distinct, at every key path whose
endpoint is not a dict on both sides*: if a successful run maps the settings
tree to `s'`, every such path keeps its settings-side value unchanged.  For
a both-dict endpoint the subtrees are merged rather than kept, and without
the dot-free proviso a run can change or destroy present values
(`C5_value_changed_counterexample`). -/
theorem C5_sanitize_preserves_present (s d s2 x y : PTree) (q : List Key)
    (hg : goodT s = true) (hgd : goodT d = true) (hd : isDict s = true)
    (hq : q ≠ []) (hrun : sanitize_settings s d = .ok s2)
    (hx : lookupPath s q = some x) (hy : lookupPath d q = some y)
    (hnb : (isDict x && isDict y) = false) :
    lookupPath s2 q = some x := by
  have hm := sanitize_settings_merge s d hg hgd hd
  rw [hrun] at hm
  injection hm with hm2
  subst hm2
  exact lookupPath_mergeT q s d x y hq hg hgd hx hy hnb

/-- Witness: a concrete pair where the nested path `n.b` is present on both
sides with scalar values, and the run keeps the settings-side value. -/
theorem C5_sanitize_preserves_present_witness :
    (goodT (PTree.dcons ['a'] (.leaf 1)
        (.dcons ['n'] (.dcons ['b'] (.leaf 2) .dnil) .dnil)) = true ∧
     goodT (PTree.dcons ['n'] (.dcons ['b'] (.leaf 9) .dnil) .dnil) = true ∧
     isDict (PTree.dcons ['a'] (.leaf 1)
        (.dcons ['n'] (.dcons ['b'] (.leaf 2) .dnil) .dnil)) = true ∧
     ([['n'], ['b']] : List Key) ≠ [] ∧
     sanitize_settings
        (PTree.dcons ['a'] (.leaf 1)
          (.dcons ['n'] (.dcons ['b'] (.leaf 2) .dnil) .dnil))
        (PTree.dcons ['n'] (.dcons ['b'] (.leaf 9) .dnil) .dnil) =
       .ok (PTree.dcons ['n'] (.dcons ['b'] (.leaf 2) .dnil) .dnil) ∧
     lookupPath (PTree.dcons ['a'] (.leaf 1)
        (.dcons ['n'] (.dcons ['b'] (.leaf 2) .dnil) .dnil))
       [['n'], ['b']] = some (.leaf 2) ∧
     lookupPath (PTree.dcons ['n'] (.dcons ['b'] (.leaf 9) .dnil) .dnil)
       [['n'], ['b']] = some (.leaf 9) ∧
     (isDict (PTree.leaf 2) && isDict (PTree.leaf 9)) = false) ∧
    lookupPath (PTree.dcons ['n'] (.dcons ['b'] (.leaf 2) .dnil) .dnil)
      [['n'], ['b']] = some (.leaf 2) :=
  ⟨⟨by decide, by decide, by decide, by decide, by decide, by decide,
    by decide, by decide⟩,
   C5_sanitize_preserves_present
     (PTree.dcons ['a'] (.leaf 1)
       (.dcons ['n'] (.dcons ['b'] (.leaf 2) .dnil) .dnil))
     (PTree.dcons ['n'] (.dcons ['b'] (.leaf 9) .dnil) .dnil)
     (PTree.dcons ['n'] (.dcons ['b'] (.leaf 2) .dnil) .dnil)
     (PTree.leaf 2) (PTree.leaf 9) [['n'], ['b']]
     (by decide) (by decide) (by decide) (by decide) (by decide)
     (by decide) (by decide) (by decide)⟩
